import Mathlib

/-!
Verification of the jj-forge stack-synchronization core.

Strings are modelled as `List Char` (`Str`). Go's `strings.Split(s, "\n")`,
`strings.Join(_, "\n")`, `strings.TrimRight` and `strings.TrimSpace` are
embedded as `splitNl`, `joinNl`, `List.rdropWhile`-based trims below.
-/

abbrev Str := List Char

/-- Go `strings.Split(s, "\n")`: split on newline, at least one field. -/
def splitNl : Str → List Str
  | [] => [[]]
  | c :: rest =>
    if c = '\n' then [] :: splitNl rest else (splitNl rest).modifyHead (c :: ·)

/-- Go `strings.Join(lines, "\n")`. -/
def joinNl : List Str → Str
  | [] => []
  | [l] => l
  | l :: ls => l ++ '\n' :: joinNl ls

/-- Go `strings.TrimRight(s, "\n")`. -/
def trimNl (s : Str) : Str := s.rdropWhile (· = '\n')

/-- Go `strings.TrimRight(s, " \t\n\r")`. -/
def trimWsRight (s : Str) : Str :=
  s.rdropWhile (fun c => c = ' ' || c = '\t' || c = '\n' || c = '\r')

/-- Go `strings.TrimSpace` (whitespace per `Char.isWhitespace`). -/
def trimSpace (s : Str) : Str :=
  (s.dropWhile Char.isWhitespace).rdropWhile Char.isWhitespace

/-- Go `strings.ToLower` restricted to ASCII case mapping. -/
def lowerStr (s : Str) : Str := s.map Char.toLower

/-! part_006 (`package jj`): the forge-parent trailer functions. -/

def ForgeParentKey : Str := "forge-parent".toList

/-- The rendered trailer line `fmt.Sprintf("%s: %s", ForgeParentKey, parentID)`. -/
def forgeTrailerLine (parentID : Str) : Str :=
  ForgeParentKey ++ ':' :: ' ' :: parentID

/-- Go `strings.HasPrefix(strings.ToLower(line), strings.ToLower(ForgeParentKey)+":")`. -/
def hasForgeKey (line : Str) : Bool :=
  (lowerStr ForgeParentKey ++ [':']).isPrefixOf (lowerStr line)

/-- The first loop of `UpdateForgeParent`: replace the first line carrying the
forge-parent key with the fresh trailer line; `none` when no line matches. -/
def setForgeLine (parentID : Str) : List Str → Option (List Str)
  | [] => none
  | l :: ls =>
    if hasForgeKey l then some (forgeTrailerLine parentID :: ls)
    else (setForgeLine parentID ls).map (l :: ·)

/-- part_006 `isTrailer`: `strings.SplitN(line, ":", 2)` has two parts and the
trimmed key is nonempty without inner spaces. -/
def isTrailer (line : Str) : Bool :=
  if ':' ∈ line then
    let key := trimSpace (line.takeWhile (· ≠ ':'))
    !key.isEmpty && !(' ' ∈ key : Bool)
  else false

/-- part_006 `UpdateForgeParent`. -/
def UpdateForgeParent (description parentID : Str) : Str :=
  let lines := splitNl (trimNl description)
  match setForgeLine parentID lines with
  | some newLines => joinNl newLines ++ ['\n']
  | none =>
    if lines = [[]] then forgeTrailerLine parentID ++ ['\n']
    else if lines.length > 1 && isTrailer (lines.getLastD []) then
      joinNl lines ++ '\n' :: forgeTrailerLine parentID ++ ['\n']
    else
      joinNl lines ++ '\n' :: '\n' :: forgeTrailerLine parentID ++ ['\n']

/-- part_006 `RemoveForgeParent`. -/
def RemoveForgeParent (description : Str) : Str :=
  let lines := splitNl (trimNl description)
  let newLines := lines.filter (fun l => !hasForgeKey l)
  trimNl (joinNl newLines) ++ ['\n']

/-! internal/jj/trailers.go: the trailer parser. -/

/-- A git trailer: key/value pair embedded in commit text. -/
structure Trailer where
  key : Str
  value : Str
deriving DecidableEq, Repr

/-- A character allowed in a trailer key by `trailerRegex` (`[a-zA-Z0-9-]`). -/
def isKeyChar (c : Char) : Bool := c.isAlpha || c.isDigit || c = '-'

/-- The match of `trailerRegex` = `^([a-zA-Z0-9-]+) *: *(.*)$` against one line
(which contains no newline): the key is the maximal nonempty run of key
characters, followed by spaces, a colon, and spaces; the remainder is the
captured value. The regex backtracking is deterministic here because the key
class excludes space and colon. -/
def lineTrailerMatch (line : Str) : Option (Str × Str) :=
  let key := line.takeWhile isKeyChar
  let rest := (line.dropWhile isKeyChar).dropWhile (· = ' ')
  if key.isEmpty then none
  else
    match rest with
    | ':' :: rest2 => some (key, rest2.dropWhile (· = ' '))
    | _ => none

/-- The cherry-pick marker prefix `"(cherry picked from commit "`. -/
def cherryMarker : Str := "(cherry picked from commit ".toList

/-- Mutable state of the backward scan in `parseTrailersImpl`: accumulated
trailers (in scan order, reversed at the end), buffered continuation lines,
the git-trailer flag, and the recorded non-trailer line (`[]` = unset). -/
structure ScanState where
  trailers : List Trailer
  multilineValue : List Str
  foundGitTrailer : Bool
  nonTrailerLine : Str
deriving DecidableEq, Repr

/-- Completing one trailer in the scan: append the captured value start to the
buffer, right-trim the first buffered line (the bottom of the value), reverse
into forward order and join; flag `signed-off-by` keys. -/
def completeTrailer (st : ScanState) (key valStart : Str) : ScanState :=
  let mv := st.multilineValue ++ [valStart]
  let mv :=
    match mv with
    | m0 :: ms => m0.rdropWhile (fun c => c = ' ' || c = '\t') :: ms
    | [] => []
  { st with
    trailers := st.trailers ++ [⟨key, joinNl mv.reverse⟩]
    multilineValue := []
    foundGitTrailer := st.foundGitTrailer || (lowerStr key = "signed-off-by".toList) }

/-- The scan loop of `parseTrailersImpl` over the reversed line list; the
returned Bool is `foundBlank` (a blank line breaks the loop). -/
def scanLines : List Str → ScanState → ScanState × Bool
  | [], st => (st, false)
  | line :: rest, st =>
    if [' '].isPrefixOf line then
      scanLines rest { st with multilineValue := st.multilineValue ++ [line] }
    else
      match lineTrailerMatch line with
      | some (key, valStart) => scanLines rest (completeTrailer st key valStart)
      | none =>
        if cherryMarker.isPrefixOf line then
          scanLines rest
            { st with foundGitTrailer := true, nonTrailerLine := line, multilineValue := [] }
        else if trimSpace line = [] then (st, true)
        else scanLines rest { st with multilineValue := [], nonTrailerLine := line }

/-- The result quadruple of `parseTrailersImpl`. -/
structure ParseRes where
  trailers : List Trailer
  foundBlank : Bool
  foundGitTrailer : Bool
  nonTrailerLine : Str
deriving DecidableEq, Repr

/-- `parseTrailersImpl`: trim trailing whitespace, split into lines, scan from
the last line backward, reverse the accumulated trailers. -/
def parseTrailersImpl (body : Str) : ParseRes :=
  let trimmed := trimWsRight body
  if trimmed.isEmpty then ⟨[], false, false, []⟩
  else
    let p := scanLines (splitNl trimmed).reverse ⟨[], [], false, []⟩
    ⟨p.1.trailers.reverse, p.2, p.1.foundGitTrailer, p.1.nonTrailerLine⟩

/-- `ParseDescriptionTrailers`: lenient description parsing. -/
def ParseDescriptionTrailers (description : Str) : List Trailer :=
  let r := parseTrailersImpl description
  if !r.foundBlank then []
  else if !r.nonTrailerLine.isEmpty && !r.foundGitTrailer then []
  else r.trailers

inductive TrailerErrKind where
  | blankLine
  | nonTrailer
deriving DecidableEq, Repr

/-- `TrailerParseError` with the Go error message text. -/
structure TrailerParseError where
  kind : TrailerErrKind
  message : Str
deriving DecidableEq, Repr

/-- `ParseTrailers`: strict trailer-only parsing. -/
def ParseTrailers (text : Str) : Except TrailerParseError (List Trailer) :=
  let r := parseTrailersImpl text
  if r.foundBlank then
    .error ⟨.blankLine, "The trailer paragraph can\x27t contain a blank line".toList⟩
  else if !r.nonTrailerLine.isEmpty then
    .error ⟨.nonTrailer, "Invalid trailer line: ".toList ++ r.nonTrailerLine⟩
  else .ok r.trailers

/-! Sanity checks against the Go unit tests in part_009. -/

example : UpdateForgeParent [] ("abc123".toList) = "forge-parent: abc123\n".toList := by decide

example : UpdateForgeParent ("feat: add something".toList) ("abc123".toList)
    = "feat: add something\n\nforge-parent: abc123\n".toList := by decide

example : UpdateForgeParent ("feat: add something\n\nforge-parent: oldid\n".toList) ("newid".toList)
    = "feat: add something\n\nforge-parent: newid\n".toList := by decide

example : UpdateForgeParent ("feat: add something\n\nSigned-off-by: Me <me@me.com>".toList) ("abc123".toList)
    = "feat: add something\n\nSigned-off-by: Me <me@me.com>\nforge-parent: abc123\n".toList := by decide

example : RemoveForgeParent ("feat: add something\n".toList) = "feat: add something\n".toList := by decide

example : RemoveForgeParent ("feat: add something\n\nforge-parent: abc123\n".toList)
    = "feat: add something\n".toList := by decide

example : RemoveForgeParent ("feat: add something\n\nforge-parent: abc123\nSigned-off-by: Me\n".toList)
    = "feat: add something\n\nSigned-off-by: Me\n".toList := by decide

/-! Sanity checks against the Go parser unit tests in part_008. -/

example : ParseDescriptionTrailers ("subject\n\nfoo: 1\n\n".toList)
    = [⟨"foo".toList, "1".toList⟩] := by decide

example : ParseDescriptionTrailers ("subject\n\nfoo: 1\n\nbar: 2\n".toList)
    = [⟨"bar".toList, "2".toList⟩] := by decide

example : ParseDescriptionTrailers ("subject: whatever\nfoo: 1\n".toList) = [] := by decide

example : ParseDescriptionTrailers ("subject\n\n foo: 1\n".toList) = [] := by decide

example : ParseDescriptionTrailers ("subject\n\nfoo : 1\n".toList)
    = [⟨"foo".toList, "1".toList⟩] := by decide

example : ParseDescriptionTrailers ("subject\n\nfoo:  1 \n".toList)
    = [⟨"foo".toList, "1".toList⟩] := by decide

example : ParseDescriptionTrailers ("subject\n\nfoo:  1 \n 2 \n".toList)
    = [⟨"foo".toList, "1 \n 2".toList⟩] := by decide

example : ParseDescriptionTrailers ("subject\n\nfoo:1\n".toList)
    = [⟨"foo".toList, "1".toList⟩] := by decide

example : ParseDescriptionTrailers ("subject\n\nfoo:\n".toList)
    = [⟨"foo".toList, []⟩] := by decide

example : ParseDescriptionTrailers ("subject\n\nf_o_o: bar\n".toList) = [] := by decide

example : ParseDescriptionTrailers ("subject\n\nfoo: bar\nbaz\n".toList) = [] := by decide

example : ParseDescriptionTrailers ("subject\n\nfoo: bar\n\nbaz\n".toList) = [] := by decide

example : ParseDescriptionTrailers [] = [] := by decide

example : ParseDescriptionTrailers
      ("subject\n\nsome non-trailer text\nfoo: bar\n(cherry picked from commit 72bb9f9cf4bbb6bbb11da9cda4499c55c44e87b9)\n".toList)
    = [⟨"foo".toList, "bar".toList⟩] := by decide

example : ParseTrailers ("foo: 1\nbar: 2\n".toList)
    = .ok [⟨"foo".toList, "1".toList⟩, ⟨"bar".toList, "2".toList⟩] := by rfl

example : (ParseTrailers ("foo: 1\n\nfoo: 2\n".toList)).isOk = false := by decide

example : ParseTrailers ("bar\nfoo: 1\n".toList)
    = .error ⟨.nonTrailer, "Invalid trailer line: bar".toList⟩ := by rfl

example : ParseDescriptionTrailers
      ("chore: update\n\nSigned-off-by: Random J Developer <random@developer.example.org>\n[lucky@maintainer.example.org: struct foo moved]\nSigned-off-by: Lucky K Maintainer <lucky@maintainer.example.org>\n".toList)
    = [⟨"Signed-off-by".toList, "Random J Developer <random@developer.example.org>".toList⟩,
       ⟨"Signed-off-by".toList, "Lucky K Maintainer <lucky@maintainer.example.org>".toList⟩] := by
  set_option maxRecDepth 4096 in decide

/-! internal/jj/client.go `Rev`, and the revision map built by both pipelines. -/

/-- A revision snapshot (fields used by the pipelines). -/
structure Rev where
  id : Str
  isMutable : Bool
  isConflicted : Bool
  isDivergent : Bool
  isEmpty : Bool
  description : Str
  parents : List Str
  remoteBookmarks : List Str
deriving DecidableEq, Repr

/-- The Go `map[string]*jj.Rev` built by inserting the list in order
(later insertions win): lookup returns the last entry with the id. -/
def lookupRev : List Rev → Str → Option Rev
  | [], _ => none
  | r :: rest, i =>
    match lookupRev rest i with
    | some x => some x
    | none => if r.id = i then some r else none

/-! part_001 (`package change`): the Upload pipeline. Client command failures
abort the Go pipeline with the underlying error; the claims under study concern
executions where external commands succeed, so the model records the issued
commands in a trace instead of threading command errors. -/

/-- Statistics of the upload operation. -/
structure UploadResult where
  pushed : Nat
  skipped : Nat
  skippedEmpty : Nat
  skippedAnonymous : Nat
  skippedSynced : Nat
  trailersUpdated : Nat
deriving DecidableEq, Repr

def emptyUploadResult : UploadResult := ⟨0, 0, 0, 0, 0, 0⟩

/-- External commands issued by Upload: `jj describe <id> --no-edit -m <msg>`
and `jj git push --change <id> --remote <remote> --allow-new`. -/
inductive Cmd where
  | describe (id msg : Str)
  | pushChange (id remote : Str)
deriving DecidableEq, Repr

/-- Upload pipeline error: a declared parent id missing from the revision map. -/
inductive UploadErr where
  | missingParent (pid rid : Str)
deriving DecidableEq, Repr

/-- The per-change outcome inside the Upload loop. -/
inductive UploadOutcome where
  | skipEmpty
  | skipAnonymous
  | skipSynced
  | pushedOnly
  | describedPushed
deriving DecidableEq, Repr

/-- Counter increments for each outcome, as performed by the Go loop. -/
def bumpResult (res : UploadResult) : UploadOutcome → UploadResult
  | .skipEmpty => { res with skippedEmpty := res.skippedEmpty + 1, skipped := res.skipped + 1 }
  | .skipAnonymous =>
      { res with skippedAnonymous := res.skippedAnonymous + 1, skipped := res.skipped + 1 }
  | .skipSynced => { res with skippedSynced := res.skippedSynced + 1, skipped := res.skipped + 1 }
  | .pushedOnly => { res with pushed := res.pushed + 1 }
  | .describedPushed =>
      { res with trailersUpdated := res.trailersUpdated + 1, pushed := res.pushed + 1 }

/-- The `mutableParentID` loop: walk the declared parents in order; error on a
parent missing from the map; stop at the first parent that is still mutable;
`[]` (Go `""`) when no mutable parent is found. -/
def findMutableParent (revmap : List Rev) (rid : Str) : List Str → Except (Str × Str) Str
  | [] => .ok []
  | pid :: ps =>
    match lookupRev revmap pid with
    | none => .error (pid, rid)
    | some pRev =>
      if pRev.isMutable then .ok pRev.id else findMutableParent revmap rid ps

/-- The new description computed from the walk result: update the trailer when
a mutable parent was found, remove it otherwise. -/
def newDescriptionFor (description mpid : Str) : Str :=
  if mpid ≠ [] then UpdateForgeParent description mpid else RemoveForgeParent description

/-- The remote marker `remote+"/push-"+rev.ID` checked by `slices.Contains`. -/
def pushMarker (remote id : Str) : Str := remote ++ '/' :: ("push-".toList ++ id)

/-- The body of the Upload loop for one revision: outcome plus issued commands,
or the missing-parent error. -/
def processRev (revmap : List Rev) (remote : Str) (rev : Rev) :
    Except (Str × Str) (UploadOutcome × List Cmd) :=
  if rev.isEmpty then .ok (.skipEmpty, [])
  else if trimSpace rev.description = [] then .ok (.skipAnonymous, [])
  else
    match findMutableParent revmap rev.id rev.parents with
    | .error e => .error e
    | .ok mpid =>
      let newDescription := newDescriptionFor rev.description mpid
      if newDescription ≠ rev.description then
        .ok (.describedPushed, [.describe rev.id newDescription, .pushChange rev.id remote])
      else if pushMarker remote rev.id ∈ rev.remoteBookmarks then .ok (.skipSynced, [])
      else .ok (.pushedOnly, [.pushChange rev.id remote])

/-- The Upload loop over the parent-to-child ordered stack. -/
def uploadLoop (revmap : List Rev) (remote : Str) :
    List Rev → UploadResult → List Cmd → Except UploadErr (UploadResult × List Cmd)
  | [], res, tr => .ok (res, tr)
  | rev :: rest, res, tr =>
    match processRev revmap remote rev with
    | .error e => .error (.missingParent e.1 e.2)
    | .ok (out, cmds) => uploadLoop revmap remote rest (bumpResult res out) (tr ++ cmds)

/-- `Upload`: `stack` is the revset query result (child-to-parent, as returned
by the client), `pstack` the parents query result. The stack is reversed, the
revision map is built from the reversed stack followed by the parents, and the
loop runs parent-to-child. -/
def Upload (stack pstack : List Rev) (remote : Str) :
    Except UploadErr (UploadResult × List Cmd) :=
  let stackR := stack.reverse
  if stackR.isEmpty then .ok (emptyUploadResult, [])
  else uploadLoop (stackR ++ pstack) remote stackR emptyUploadResult []

/-! internal/change/submit.go: the Submit pipeline. The model is parameterized
by the client responses: the phase-1 head query result, the phase-2 stack and
parents query results, and the head returned by the re-query after each push.
The trace records fetches, head queries, bookmark moves and pushes; the
read-only stack/parents revset queries of phase 2 are not recorded. -/

/-- Outcome counter of a submit operation. -/
structure SubmitResult where
  submitted : Nat
deriving DecidableEq, Repr

/-- External commands/queries recorded by the Submit model. -/
inductive SCmd where
  | gitFetch
  | queryHead
  | bookmarkSet (branch id : Str)
  | gitPush (branch remote : Str)
deriving DecidableEq, Repr

/-- Submit errors, one constructor per early-return site of the Go function. -/
inductive SubmitErr where
  | headCount (n : Nat)
  | validationMerge (rid : Str) (pos : Nat) (parents : List Str)
  | validationParent (rid : Str) (pos : Nat) (expected actual : Str)
  | missingParentEntry (expected rid : Str)
  | headCountAfterPush (n : Nat)
  | remoteStateError (expected found : Str)
deriving DecidableEq, Repr

/-- Phase 3: pre-validate the whole stack (`revs` already parent-to-child,
`i` the 0-based position, `expected` the expected parent id). -/
def validateStack (revmap : List Rev) : List Rev → Str → Nat → Option SubmitErr
  | [], _, _ => none
  | rev :: rest, expected, i =>
    if rev.parents.length > 1 then some (.validationMerge rev.id (i + 1) rev.parents)
    else if rev.parents.length ≠ 1 ∨ rev.parents.head? ≠ some expected then
      some (.validationParent rev.id (i + 1) expected (rev.parents.headD []))
    else if (lookupRev revmap expected).isNone then some (.missingParentEntry expected rev.id)
    else validateStack revmap rest rev.id (i + 1)

/-- Phase 4: per change, move the bookmark, push, fetch, re-query the head
(`requery k` is the response after the k-th push), verify. -/
def submitExec (requery : Nat → List Rev) (branch remote : Str) :
    List Rev → Nat → SubmitResult → List SCmd → Except SubmitErr SubmitResult × List SCmd
  | [], _, res, tr => (.ok res, tr)
  | rev :: rest, k, res, tr =>
    let tr := tr ++ [.bookmarkSet branch rev.id, .gitPush branch remote, .gitFetch, .queryHead]
    let res := { res with submitted := res.submitted + 1 }
    match requery k with
    | [u] =>
      if u.id ≠ rev.id then (.error (.remoteStateError rev.id u.id), tr)
      else submitExec requery branch remote rest (k + 1) res tr
    | l => (.error (.headCountAfterPush l.length), tr)

/-- The client responses a Submit execution consumes. -/
structure SubmitEnv where
  initialHeads : List Rev
  stackRevs : List Rev
  parentRevs : List Rev
  requery : Nat → List Rev

/-- `Submit`: fetch and resolve the remote head, resolve the stack and its
parents, pre-validate, then execute push-by-push with re-verification. -/
def Submit (env : SubmitEnv) (branch remote : Str) :
    Except SubmitErr SubmitResult × List SCmd :=
  let tr : List SCmd := [.gitFetch, .queryHead]
  match env.initialHeads with
  | [h] =>
    if env.stackRevs.isEmpty then (.ok ⟨0⟩, tr)
    else
      let revmap := env.stackRevs ++ env.parentRevs ++ [h]
      let revsR := env.stackRevs.reverse
      match validateStack revmap revsR h.id 0 with
      | some e => (.error e, tr)
      | none => submitExec env.requery branch remote revsR 0 ⟨0⟩ tr
  | l => (.error (.headCount l.length), tr)

/-- The expected parent of the change at position `k` in the parent-to-child
stack: the remote head for the first change, the previous change's id after. -/
def expectedParentAt (head : Str) (revs : List Rev) : Nat → Option Str
  | 0 => some head
  | k + 1 => (revs[k]?).map Rev.id

/-- Position (1-based) carried by a validation error, if any. -/
def errPos : SubmitErr → Option Nat
  | .validationMerge _ pos _ => some pos
  | .validationParent _ pos _ _ => some pos
  | _ => none

/-- Offending revision id carried by a validation error, if any. -/
def errId : SubmitErr → Option Str
  | .validationMerge rid _ _ => some rid
  | .validationParent rid _ _ _ => some rid
  | _ => none

/-! Modelled from the spec: the effect of Upload's external commands on the
revision snapshots seen by a later run. The `jj` tool itself is outside this
repository; per spec §3 a change "is considered present on remote R iff
`"<R>/push-<id>"` is a member" of its remote pointers, and a describe command
replaces the change's description (spec §3: a description change "is applied by
issuing a new external command and is only reflected in a freshly re-fetched
snapshot"). Identifiers, parents, mutability and emptiness are stable. -/
def applyCmd (revs : List Rev) : Cmd → List Rev
  | .describe i msg => revs.map fun r => if r.id = i then { r with description := msg } else r
  | .pushChange i remote =>
      revs.map fun r =>
        if r.id = i then { r with remoteBookmarks := r.remoteBookmarks ++ [pushMarker remote i] }
        else r

/-- Modelled from the spec: apply a whole command trace in order. -/
def applyCmds (trace : List Cmd) (revs : List Rev) : List Rev :=
  trace.foldl applyCmd revs

/-! Sanity checks of the pipelines against the Go tests in upload_test.go. -/

def revRoot : Rev := ⟨"root".toList, false, false, false, false, [], [], []⟩

def revA : Rev :=
  ⟨"aaaaaaaaaaaa".toList, true, false, false, false, "feat: A\n".toList, ["root".toList], []⟩

def revB : Rev :=
  ⟨"bbbbbbbbbbbb".toList, true, false, false, false, "feat: B\n".toList,
    ["aaaaaaaaaaaa".toList], []⟩

example : Upload [revB, revA] [revRoot] ("og".toList)
    = .ok (⟨2, 0, 0, 0, 0, 1⟩,
        [.pushChange ("aaaaaaaaaaaa".toList) ("og".toList),
         .describe ("bbbbbbbbbbbb".toList) ("feat: B\n\nforge-parent: aaaaaaaaaaaa\n".toList),
         .pushChange ("bbbbbbbbbbbb".toList) ("og".toList)]) := by rfl

def revASynced : Rev :=
  ⟨"aaaaaaaaaaaa".toList, true, false, false, false, "A\n".toList, ["root".toList],
    ["og/push-aaaaaaaaaaaa".toList]⟩

example : Upload [revASynced] [revRoot] ("og".toList)
    = .ok (⟨0, 1, 0, 0, 1, 0⟩, []) := by rfl

example : Upload [] [] ("og".toList) = .ok (emptyUploadResult, []) := by rfl

def submitEnvOk : SubmitEnv where
  initialHeads := [revRoot]
  stackRevs := [revB, revA]
  parentRevs := [revRoot]
  requery k := if k = 0 then [revA] else [revB]

example : Submit submitEnvOk ("main".toList) ("og".toList)
    = (.ok ⟨2⟩,
       [.gitFetch, .queryHead,
        .bookmarkSet ("main".toList) ("aaaaaaaaaaaa".toList),
        .gitPush ("main".toList) ("og".toList), .gitFetch, .queryHead,
        .bookmarkSet ("main".toList) ("bbbbbbbbbbbb".toList),
        .gitPush ("main".toList) ("og".toList), .gitFetch, .queryHead]) := by rfl

def revMerge : Rev :=
  ⟨"cccccccccccc".toList, true, false, false, false, "C\n".toList,
    ["aaaaaaaaaaaa".toList, "root".toList], []⟩

def submitEnvMerge : SubmitEnv where
  initialHeads := [revRoot]
  stackRevs := [revMerge, revA]
  parentRevs := [revRoot]
  requery _ := []

example : Submit submitEnvMerge ("main".toList) ("og".toList)
    = (.error (.validationMerge ("cccccccccccc".toList) 2
          ["aaaaaaaaaaaa".toList, "root".toList]),
       [.gitFetch, .queryHead]) := by rfl


/-! Lemmas about the line primitives. -/

theorem splitNl_ne_nil (s : Str) : splitNl s ≠ [] := by
  induction s with
  | nil => simp [splitNl]
  | cons c rest ih =>
    rw [splitNl]
    split
    · simp
    · cases h : splitNl rest with
      | nil => exact absurd h ih
      | cons l ls => simp

theorem joinNl_cons_cons (l m : Str) (ls : List Str) :
    joinNl (l :: m :: ls) = l ++ '\n' :: joinNl (m :: ls) := rfl

theorem joinNl_splitNl (s : Str) : joinNl (splitNl s) = s := by
  induction s with
  | nil => simp [splitNl, joinNl]
  | cons c rest ih =>
    rw [splitNl]
    cases h : splitNl rest with
    | nil => exact absurd h (splitNl_ne_nil rest)
    | cons l ls =>
      rw [h] at ih
      by_cases hc : c = '\n'
      · subst hc
        rw [if_pos rfl, joinNl_cons_cons, ih]
        simp
      · rw [if_neg hc, List.modifyHead_cons]
        cases ls with
        | nil => simpa [joinNl] using ih
        | cons m ms =>
          rw [joinNl_cons_cons] at ih ⊢
          simpa using ih

theorem nl_not_mem_splitNl (s : Str) : ∀ l ∈ splitNl s, '\n' ∉ l := by
  induction s with
  | nil => simp [splitNl]
  | cons c rest ih =>
    rw [splitNl]
    cases h : splitNl rest with
    | nil => exact absurd h (splitNl_ne_nil rest)
    | cons l ls =>
      rw [h] at ih
      intro x hx
      by_cases hc : c = '\n'
      · rw [if_pos hc] at hx
        rcases List.mem_cons.mp hx with hx1 | hx1
        · simp [hx1]
        · exact ih x hx1
      · rw [if_neg hc, List.modifyHead_cons] at hx
        rcases List.mem_cons.mp hx with hx1 | hx1
        · subst hx1
          have := ih l (by simp)
          simp only [List.mem_cons]
          rintro (h1 | h1)
          · exact hc h1.symm
          · exact this h1
        · exact ih x (by simp [hx1])

theorem splitNl_eq_single (s : Str) (h : '\n' ∉ s) : splitNl s = [s] := by
  induction s with
  | nil => simp [splitNl]
  | cons c rest ih =>
    have hc : c ≠ '\n' := fun hh => h (by simp [hh])
    rw [splitNl, if_neg hc, ih (fun hm => h (by simp [hm]))]
    simp

theorem splitNl_append_cons (a b : Str) (h : '\n' ∉ a) :
    splitNl (a ++ '\n' :: b) = a :: splitNl b := by
  induction a with
  | nil =>
    simp only [List.nil_append]
    rw [splitNl, if_pos rfl]
  | cons c rest ih =>
    have hc : c ≠ '\n' := fun hh => h (by simp [hh])
    have hrest : '\n' ∉ rest := fun hm => h (by simp [hm])
    simp only [List.cons_append]
    rw [splitNl, if_neg hc, ih hrest]
    simp

theorem splitNl_joinNl (L : List Str) (hL : ∀ l ∈ L, '\n' ∉ l) (hne : L ≠ []) :
    splitNl (joinNl L) = L := by
  induction L with
  | nil => exact absurd rfl hne
  | cons x xs ih =>
    cases xs with
    | nil => simpa [joinNl] using splitNl_eq_single x (hL x (by simp))
    | cons y ys =>
      rw [joinNl_cons_cons, splitNl_append_cons _ _ (hL x (by simp))]
      rw [ih (fun l hl => hL l (by simp [hl])) (by simp)]

theorem joinNl_append (L M : List Str) (hL : L ≠ []) (hM : M ≠ []) :
    joinNl (L ++ M) = joinNl L ++ '\n' :: joinNl M := by
  induction L with
  | nil => exact absurd rfl hL
  | cons x xs ih =>
    cases xs with
    | nil =>
      cases M with
      | nil => exact absurd rfl hM
      | cons m ms => simp [joinNl_cons_cons, joinNl]
    | cons y ys =>
      simp only [List.cons_append]
      rw [joinNl_cons_cons]
      have := ih (by simp)
      simp only [List.cons_append] at this
      rw [this, joinNl_cons_cons]
      simp

theorem splitNl_joinNl_append (L : List Str) (b : Str)
    (hL : ∀ l ∈ L, '\n' ∉ l) (hne : L ≠ []) :
    splitNl (joinNl L ++ '\n' :: b) = L ++ splitNl b := by
  induction L with
  | nil => exact absurd rfl hne
  | cons x xs ih =>
    cases xs with
    | nil => simpa [joinNl] using splitNl_append_cons x b (hL x (by simp))
    | cons y ys =>
      rw [joinNl_cons_cons, List.append_assoc, List.cons_append]
      rw [splitNl_append_cons _ _ (hL x (by simp))]
      rw [ih (fun l hl => hL l (by simp [hl])) (by simp)]
      simp

/-! Lemmas about trailing-newline trimming. -/

theorem trimNl_concat_nl (s : Str) : trimNl (s ++ ['\n']) = trimNl s := by
  simp [trimNl, List.rdropWhile_concat]

theorem trimNl_concat_ne (s : Str) (c : Char) (hc : c ≠ '\n') :
    trimNl (s ++ [c]) = s ++ [c] := by
  simp [trimNl, List.rdropWhile_concat, hc]

theorem trimNl_idem (s : Str) : trimNl (trimNl s) = trimNl s :=
  List.rdropWhile_idempotent _ _

theorem trimNl_append_no_nl (a t : Str) (ht : t ≠ []) (hnl : '\n' ∉ t) :
    trimNl (a ++ t) = a ++ t := by
  have hdecomp : t.dropLast ++ [t.getLast ht] = t := List.dropLast_append_getLast ht
  have hlast : t.getLast ht ≠ '\n' := fun h => hnl (h ▸ List.getLast_mem ht)
  calc trimNl (a ++ t) = trimNl ((a ++ t.dropLast) ++ [t.getLast ht]) := by
        rw [List.append_assoc, hdecomp]
    _ = (a ++ t.dropLast) ++ [t.getLast ht] := trimNl_concat_ne _ _ hlast
    _ = a ++ t := by rw [List.append_assoc, hdecomp]

theorem trimNl_eq_self_no_nl (t : Str) (hnl : '\n' ∉ t) : trimNl t = t := by
  cases t with
  | nil => simp [trimNl]
  | cons c cs => simpa using trimNl_append_no_nl [] (c :: cs) (by simp) hnl

/-- Trimming trailing newlines of a joined line list drops the trailing empty
lines, provided the lines are newline-free. -/
theorem trimNl_joinNl (L : List Str) (hL : ∀ l ∈ L, '\n' ∉ l) :
    trimNl (joinNl L) = joinNl (L.rdropWhile List.isEmpty) := by
  induction L using List.reverseRecOn with
  | nil => simp [joinNl, trimNl]
  | append_singleton F x ih =>
    by_cases hx : x = []
    · subst hx
      cases F with
      | nil => simp [joinNl, trimNl, List.rdropWhile]
      | cons f fs =>
        rw [joinNl_append (f :: fs) [[]] (by simp) (by simp)]
        have : joinNl (f :: fs) ++ '\n' :: joinNl [[]] = joinNl (f :: fs) ++ ['\n'] := by
          simp [joinNl]
        rw [this, trimNl_concat_nl]
        rw [ih (fun l hl => hL l (List.mem_append_left _ hl))]
        rw [List.rdropWhile_concat_pos _ _ _ (by simp)]
    · have hxnl : '\n' ∉ x := hL x (List.mem_append_right _ (by simp))
      have hkeep : (F ++ [x]).rdropWhile List.isEmpty = F ++ [x] :=
        List.rdropWhile_concat_neg _ _ _ (by simp [hx])
      rw [hkeep]
      cases F with
      | nil =>
        simp only [List.nil_append]
        exact trimNl_eq_self_no_nl _ (by simpa [joinNl] using hxnl)
      | cons f fs =>
        rw [joinNl_append (f :: fs) [x] (by simp) (by simp)]
        have hx2 : joinNl (f :: fs) ++ '\n' :: joinNl [x]
            = (joinNl (f :: fs) ++ ['\n']) ++ x := by
          simp [joinNl]
        rw [hx2]
        exact trimNl_append_no_nl _ _ hx hxnl

/-! Lemmas about the forge-parent line predicates. -/

theorem hasForgeKey_nil : hasForgeKey [] = false := by decide

theorem forgeTrailerLine_ne_nil (pid : Str) : forgeTrailerLine pid ≠ [] := by
  simp [forgeTrailerLine, ForgeParentKey]

theorem nl_not_mem_forgeLine (pid : Str) (h : '\n' ∉ pid) : '\n' ∉ forgeTrailerLine pid := by
  intro hmem
  rw [forgeTrailerLine] at hmem
  rcases List.mem_append.mp hmem with hk | hk
  · revert hk
    decide
  · rcases List.mem_cons.mp hk with hc | hc
    · exact absurd hc (by decide)
    · rcases List.mem_cons.mp hc with hc2 | hc2
      · exact absurd hc2 (by decide)
      · exact h hc2

theorem hasForgeKey_forgeLine (pid : Str) : hasForgeKey (forgeTrailerLine pid) = true := by
  have hcolon : Char.toLower ':' = ':' := by decide
  have hspace : Char.toLower ' ' = ' ' := by decide
  simp only [hasForgeKey, forgeTrailerLine, lowerStr, List.map_append, List.map_cons,
    hcolon, hspace]
  rw [List.isPrefixOf_iff_prefix]
  exact ⟨' ' :: List.map Char.toLower pid, by simp⟩

theorem setForgeLine_none_iff (pid : Str) (L : List Str) :
    setForgeLine pid L = none ↔ ∀ l ∈ L, hasForgeKey l = false := by
  induction L with
  | nil => simp [setForgeLine]
  | cons x xs ih =>
    rw [setForgeLine]
    by_cases hx : hasForgeKey x
    · simp [hx]
    · simp only [if_neg hx, Option.map_eq_none', ih]
      constructor
      · intro h l hl
        rcases List.mem_cons.mp hl with h1 | h1
        · subst h1; simpa using hx
        · exact h l h1
      · intro h l hl
        exact h l (by simp [hl])

theorem setForgeLine_eq_some (pid : Str) (L L' : List Str)
    (h : setForgeLine pid L = some L') :
    ∃ pre l0 post, L = pre ++ l0 :: post ∧ (∀ l ∈ pre, hasForgeKey l = false) ∧
      hasForgeKey l0 = true ∧ L' = pre ++ forgeTrailerLine pid :: post := by
  induction L generalizing L' with
  | nil => simp [setForgeLine] at h
  | cons x xs ih =>
    rw [setForgeLine] at h
    by_cases hx : hasForgeKey x
    · rw [if_pos hx] at h
      exact ⟨[], x, xs, by simp, by simp, hx, by simpa using h.symm⟩
    · rw [if_neg hx] at h
      rcases Option.map_eq_some'.mp h with ⟨L'', hL'', hcons⟩
      rcases ih L'' hL'' with ⟨pre, l0, post, h1, h2, h3, h4⟩
      refine ⟨x :: pre, l0, post, by simp [h1], ?_, h3, by simp [← hcons, h4]⟩
      intro l hl
      rcases List.mem_cons.mp hl with h5 | h5
      · subst h5; simpa using hx
      · exact h2 l h5

theorem splitNl_eq_nil_elem_iff (s : Str) : splitNl s = [[]] ↔ s = [] := by
  constructor
  · intro h
    have := joinNl_splitNl s
    rw [h] at this
    simpa [joinNl] using this.symm
  · intro h; simp [h, splitNl]

theorem joinNl_getLast_nil (L : List Str) (hL : L ≠ []) (hlast : L.getLast hL = [])
    (hdl : L.dropLast ≠ []) : joinNl L = joinNl L.dropLast ++ ['\n'] := by
  conv_lhs => rw [← List.dropLast_append_getLast hL]
  rw [joinNl_append _ _ hdl (by simp), hlast]
  rfl

theorem splitNl_trimNl_getLast_ne_nil (d : Str) (h : trimNl d ≠ []) :
    (splitNl (trimNl d)).getLast (splitNl_ne_nil _) ≠ [] := by
  intro hlast
  have hL : splitNl (trimNl d) ≠ [] := splitNl_ne_nil _
  have hjoin : joinNl (splitNl (trimNl d)) = trimNl d := joinNl_splitNl _
  cases hdl : (splitNl (trimNl d)).dropLast with
  | nil =>
    have hsingle : splitNl (trimNl d) = [[]] := by
      have hdecomp := List.dropLast_append_getLast hL
      rw [hdl] at hdecomp
      rw [← hdecomp, hlast]
      rfl
    exact h ((splitNl_eq_nil_elem_iff _).mp hsingle)
  | cons a as =>
    have hend : trimNl d = joinNl ((splitNl (trimNl d)).dropLast) ++ ['\n'] := by
      conv_lhs => rw [← hjoin]
      exact joinNl_getLast_nil _ hL hlast (by rw [hdl]; simp)
    have hnotnl := List.rdropWhile_last_not (p := fun c => decide (c = '\n')) (l := d) h
    have hval : (trimNl d).getLast h = '\n' := by
      rw [List.getLast_congr h (by simp) hend]
      exact List.getLast_concat _
    apply hnotnl
    show decide ((trimNl d).getLast h = '\n') = true
    simp [hval]

theorem trimNl_joinNl_of_last (L : List Str) (hnl : ∀ l ∈ L, '\n' ∉ l)
    (hL : L ≠ []) (hlast : L.getLast hL ≠ []) : trimNl (joinNl L) = joinNl L := by
  rw [trimNl_joinNl L hnl]
  congr 1
  conv_lhs => rw [← List.dropLast_append_getLast hL]
  rw [List.rdropWhile_concat_neg _ _ _ (by simpa using hlast)]
  exact List.dropLast_append_getLast hL

/-! Evaluation lemmas for the forge-parent functions. -/

theorem removeForge_eval (u : Str) :
    RemoveForgeParent u
      = trimNl (joinNl ((splitNl (trimNl u)).filter (fun l => !hasForgeKey l))) ++ ['\n'] := rfl

theorem updateForge_of_none (d pid : Str)
    (hnone : setForgeLine pid (splitNl (trimNl d)) = none) :
    UpdateForgeParent d pid =
      if splitNl (trimNl d) = [[]] then forgeTrailerLine pid ++ ['\n']
      else if (splitNl (trimNl d)).length > 1 && isTrailer ((splitNl (trimNl d)).getLastD []) then
        joinNl (splitNl (trimNl d)) ++ '\n' :: forgeTrailerLine pid ++ ['\n']
      else joinNl (splitNl (trimNl d)) ++ '\n' :: '\n' :: forgeTrailerLine pid ++ ['\n'] := by
  simp only [UpdateForgeParent, hnone]

theorem updateForge_of_some (d pid : Str) (L' : List Str)
    (hsome : setForgeLine pid (splitNl (trimNl d)) = some L') :
    UpdateForgeParent d pid = joinNl L' ++ ['\n'] := by
  simp only [UpdateForgeParent, hsome]

theorem splitNl_cons_nl (b : Str) : splitNl ('\n' :: b) = [] :: splitNl b := by
  rw [splitNl, if_pos rfl]

/-- `RemoveForgeParent` on a description with no forge-parent line normalizes
the trailing newlines to a single one. -/
theorem removeForge_no_key (d : Str)
    (hd : ∀ l ∈ splitNl (trimNl d), hasForgeKey l = false) :
    RemoveForgeParent d = trimNl d ++ ['\n'] := by
  rw [removeForge_eval]
  rw [List.filter_eq_self.mpr (fun l hl => by simp [hd l hl])]
  rw [joinNl_splitNl (trimNl d), trimNl_idem]

/-- Round-trip: update then remove yields the original with trailing newlines
normalized, provided no line already carried the forge-parent key and the id
is newline-free. -/
theorem removeForge_updateForge (d X : Str)
    (hd : ∀ l ∈ splitNl (trimNl d), hasForgeKey l = false) (hX : '\n' ∉ X) :
    RemoveForgeParent (UpdateForgeParent d X) = trimNl d ++ ['\n'] := by
  have hnone : setForgeLine X (splitNl (trimNl d)) = none := (setForgeLine_none_iff _ _).mpr hd
  have hTnl : '\n' ∉ forgeTrailerLine X := nl_not_mem_forgeLine X hX
  have hTne : forgeTrailerLine X ≠ [] := forgeTrailerLine_ne_nil X
  have hTkey := hasForgeKey_forgeLine X
  have hLnl := nl_not_mem_splitNl (trimNl d)
  have hLne := splitNl_ne_nil (trimNl d)
  have hJ : joinNl (splitNl (trimNl d)) = trimNl d := joinNl_splitNl _
  rw [updateForge_of_none d X hnone]
  by_cases h0 : splitNl (trimNl d) = [[]]
  · rw [if_pos h0]
    have hd0 : trimNl d = [] := (splitNl_eq_nil_elem_iff _).mp h0
    rw [removeForge_eval, trimNl_concat_nl, trimNl_eq_self_no_nl _ hTnl,
      splitNl_eq_single _ hTnl]
    have hfil : [forgeTrailerLine X].filter (fun l => !hasForgeKey l) = [] := by simp [hTkey]
    rw [hfil, hd0]
    rfl
  · rw [if_neg h0]
    by_cases h1 : (splitNl (trimNl d)).length > 1 && isTrailer ((splitNl (trimNl d)).getLastD [])
    · rw [if_pos h1, removeForge_eval]
      have hshape : joinNl (splitNl (trimNl d)) ++ '\n' :: forgeTrailerLine X ++ ['\n']
          = ((joinNl (splitNl (trimNl d)) ++ ['\n']) ++ forgeTrailerLine X) ++ ['\n'] := by
        simp
      rw [hshape, trimNl_concat_nl, trimNl_append_no_nl _ _ hTne hTnl]
      have hshape2 : (joinNl (splitNl (trimNl d)) ++ ['\n']) ++ forgeTrailerLine X
          = joinNl (splitNl (trimNl d)) ++ '\n' :: forgeTrailerLine X := by simp
      rw [hshape2, splitNl_joinNl_append _ _ hLnl hLne, splitNl_eq_single _ hTnl]
      rw [List.filter_append, List.filter_eq_self.mpr (fun l hl => by simp [hd l hl])]
      have : [forgeTrailerLine X].filter (fun l => !hasForgeKey l) = [] := by simp [hTkey]
      rw [this, List.append_nil, hJ, trimNl_idem]
    · rw [if_neg h1, removeForge_eval]
      have hshape : joinNl (splitNl (trimNl d)) ++ '\n' :: '\n' :: forgeTrailerLine X ++ ['\n']
          = ((joinNl (splitNl (trimNl d)) ++ ['\n', '\n']) ++ forgeTrailerLine X) ++ ['\n'] := by
        simp
      rw [hshape, trimNl_concat_nl, trimNl_append_no_nl _ _ hTne hTnl]
      have hshape2 : (joinNl (splitNl (trimNl d)) ++ ['\n', '\n']) ++ forgeTrailerLine X
          = joinNl (splitNl (trimNl d)) ++ '\n' :: ('\n' :: forgeTrailerLine X) := by simp
      rw [hshape2, splitNl_joinNl_append _ _ hLnl hLne, splitNl_cons_nl,
        splitNl_eq_single _ hTnl]
      rw [List.filter_append, List.filter_eq_self.mpr (fun l hl => by simp [hd l hl])]
      have : [[], forgeTrailerLine X].filter (fun l => !hasForgeKey l) = [[]] := by
        simp [hTkey, hasForgeKey_nil]
      rw [this, joinNl_append _ _ hLne (by simp)]
      have : joinNl (splitNl (trimNl d)) ++ '\n' :: joinNl [[]]
          = joinNl (splitNl (trimNl d)) ++ ['\n'] := by simp [joinNl]
      rw [this, trimNl_concat_nl, hJ, trimNl_idem]

theorem setForgeLine_replace (X : Str) (pre post : List Str) (t : Str)
    (hpre : ∀ l ∈ pre, hasForgeKey l = false) (ht : hasForgeKey t = true) :
    setForgeLine X (pre ++ t :: post) = some (pre ++ forgeTrailerLine X :: post) := by
  induction pre with
  | nil => simp [setForgeLine, ht]
  | cons p ps ih =>
    rw [List.cons_append, setForgeLine]
    rw [if_neg (by simp [hpre p (by simp)])]
    rw [ih (fun l hl => hpre l (by simp [hl]))]
    simp

/-- `RemoveForgeParent` is a fixpoint operator: applying it twice equals once. -/
theorem removeForge_fixpoint (d : Str) :
    RemoveForgeParent (RemoveForgeParent d) = RemoveForgeParent d := by
  have hLnl := nl_not_mem_splitNl (trimNl d)
  have hFnl : ∀ l ∈ (splitNl (trimNl d)).filter (fun l => !hasForgeKey l), '\n' ∉ l :=
    fun l hl => hLnl l (List.mem_of_mem_filter hl)
  have hB : trimNl (joinNl ((splitNl (trimNl d)).filter (fun l => !hasForgeKey l)))
      = joinNl (((splitNl (trimNl d)).filter (fun l => !hasForgeKey l)).rdropWhile
          List.isEmpty) :=
    trimNl_joinNl _ hFnl
  have hEsub : (((splitNl (trimNl d)).filter (fun l => !hasForgeKey l)).rdropWhile
      List.isEmpty).Sublist ((splitNl (trimNl d)).filter (fun l => !hasForgeKey l)) :=
    (List.rdropWhile_prefix _ _).sublist
  have hEnl : ∀ l ∈ ((splitNl (trimNl d)).filter (fun l => !hasForgeKey l)).rdropWhile
      List.isEmpty, '\n' ∉ l := fun l hl => hFnl l (hEsub.mem hl)
  have hEkey : ∀ l ∈ ((splitNl (trimNl d)).filter (fun l => !hasForgeKey l)).rdropWhile
      List.isEmpty, hasForgeKey l = false := by
    intro l hl
    have := List.mem_filter.mp (hEsub.mem hl)
    simpa using this.2
  conv_lhs => rw [removeForge_eval (RemoveForgeParent d), removeForge_eval d]
  rw [trimNl_concat_nl, trimNl_idem, hB]
  cases hE : ((splitNl (trimNl d)).filter (fun l => !hasForgeKey l)).rdropWhile
      List.isEmpty with
  | nil =>
    rw [removeForge_eval d, hB, hE]
    rfl
  | cons e es =>
    rw [splitNl_joinNl _ (by rw [← hE]; exact hEnl) (by simp)]
    rw [List.filter_eq_self.mpr (fun l hl => by
      have := hEkey l (by rw [hE]; exact hl)
      simp [this])]
    rw [removeForge_eval d, hB, hE]
    have hself : trimNl (joinNl (e :: es)) = joinNl (e :: es) := by
      rw [← hE, ← hB, trimNl_idem, hB, hE]
    rw [hself]

/-- `UpdateForgeParent` is a fixpoint operator for a fixed newline-free id. -/
theorem updateForge_fixpoint (d X : Str) (hX : '\n' ∉ X) :
    UpdateForgeParent (UpdateForgeParent d X) X = UpdateForgeParent d X := by
  have hTnl : '\n' ∉ forgeTrailerLine X := nl_not_mem_forgeLine X hX
  have hTne : forgeTrailerLine X ≠ [] := forgeTrailerLine_ne_nil X
  have hTkey := hasForgeKey_forgeLine X
  have hLnl := nl_not_mem_splitNl (trimNl d)
  have hLne := splitNl_ne_nil (trimNl d)
  cases hset : setForgeLine X (splitNl (trimNl d)) with
  | some L' =>
    rcases setForgeLine_eq_some X _ _ hset with ⟨pre, l0, post, hLdec, hprenokey, hl0, hL'⟩
    have hd0 : trimNl d ≠ [] := by
      intro h0
      rw [h0] at hLdec
      have heq : splitNl ([] : Str) = [[]] := by simp [splitNl]
      rw [heq] at hLdec
      have hmem : l0 ∈ ([[]] : List Str) := by rw [hLdec]; simp
      rw [List.mem_singleton.mp hmem] at hl0
      rw [hasForgeKey_nil] at hl0
      exact Bool.false_ne_true hl0
    have hlastL := splitNl_trimNl_getLast_ne_nil d hd0
    have hL'nl : ∀ l ∈ L', '\n' ∉ l := by
      intro l hl
      rw [hL'] at hl
      rcases List.mem_append.mp hl with h | h
      · exact hLnl l (by rw [hLdec]; exact List.mem_append_left _ h)
      · rcases List.mem_cons.mp h with h | h
        · subst h; exact hTnl
        · exact hLnl l (by rw [hLdec]; exact List.mem_append_right _ (by simp [h]))
    have hL'ne : L' ≠ [] := by rw [hL']; simp
    have hL'last : L'.getLast hL'ne ≠ [] := by
      have hq : L'.getLast? = (forgeTrailerLine X :: post).getLast? := by
        rw [hL', List.getLast?_append]
        cases post with
        | nil => simp
        | cons q qs =>
          rw [List.getLast?_eq_getLast (forgeTrailerLine X :: q :: qs) (by simp)]
          simp
      cases hpost : post with
      | nil =>
        rw [hpost] at hq
        simp only [List.getLast?_singleton] at hq
        rw [List.getLast?_eq_getLast L' hL'ne] at hq
        intro hcon
        rw [hcon] at hq
        exact hTne (Option.some.inj hq).symm
      | cons q qs =>
        have hq2 : (splitNl (trimNl d)).getLast? = post.getLast? := by
          rw [hLdec, List.getLast?_append, hpost, List.getLast?_cons_cons,
            List.getLast?_eq_getLast (q :: qs) (by simp)]
          simp
        rw [hpost] at hq
        rw [List.getLast?_cons_cons] at hq
        rw [← hpost] at hq
        rw [← hq2] at hq
        rw [List.getLast?_eq_getLast L' hL'ne,
          List.getLast?_eq_getLast (splitNl (trimNl d)) (splitNl_ne_nil _)] at hq
        intro hcon
        apply hlastL
        rw [← Option.some.inj hq, hcon]
    rw [updateForge_of_some d X L' hset]
    have htrim : trimNl (joinNl L' ++ ['\n']) = joinNl L' := by
      rw [trimNl_concat_nl]
      exact trimNl_joinNl_of_last L' hL'nl hL'ne hL'last
    have hset2 : setForgeLine X (splitNl (trimNl (joinNl L' ++ ['\n']))) = some L' := by
      rw [htrim, splitNl_joinNl L' hL'nl hL'ne, hL']
      exact setForgeLine_replace X pre post _ hprenokey hTkey
    rw [updateForge_of_some _ X L' hset2]
  | none =>
    have hnokey := (setForgeLine_none_iff X _).mp hset
    rw [updateForge_of_none d X hset]
    by_cases h0 : splitNl (trimNl d) = [[]]
    · rw [if_pos h0]
      have htrim : trimNl (forgeTrailerLine X ++ ['\n']) = forgeTrailerLine X := by
        rw [trimNl_concat_nl]
        exact trimNl_eq_self_no_nl _ hTnl
      have hset2 : setForgeLine X (splitNl (trimNl (forgeTrailerLine X ++ ['\n'])))
          = some [forgeTrailerLine X] := by
        rw [htrim, splitNl_eq_single _ hTnl]
        simpa using setForgeLine_replace X [] [] _ (by simp) hTkey
      rw [updateForge_of_some _ X _ hset2]
      rfl
    · rw [if_neg h0]
      by_cases h1 : ((splitNl (trimNl d)).length > 1 &&
          isTrailer ((splitNl (trimNl d)).getLastD [])) = true
      · rw [if_pos h1]
        have hshape : joinNl (splitNl (trimNl d)) ++ '\n' :: forgeTrailerLine X ++ ['\n']
            = ((joinNl (splitNl (trimNl d)) ++ ['\n']) ++ forgeTrailerLine X) ++ ['\n'] := by
          simp
        have htrim : trimNl (joinNl (splitNl (trimNl d)) ++ '\n' :: forgeTrailerLine X
            ++ ['\n']) = joinNl (splitNl (trimNl d)) ++ '\n' :: forgeTrailerLine X := by
          rw [hshape, trimNl_concat_nl, trimNl_append_no_nl _ _ hTne hTnl]
          simp
        have hset2 : setForgeLine X (splitNl (trimNl (joinNl (splitNl (trimNl d)) ++ '\n' ::
            forgeTrailerLine X ++ ['\n'])))
            = some (splitNl (trimNl d) ++ [forgeTrailerLine X]) := by
          rw [htrim, splitNl_joinNl_append _ _ hLnl hLne, splitNl_eq_single _ hTnl]
          simpa using setForgeLine_replace X (splitNl (trimNl d)) [] _ hnokey hTkey
        rw [updateForge_of_some _ X _ hset2]
        rw [joinNl_append _ _ hLne (by simp)]
        simp [joinNl]
      · rw [if_neg h1]
        have hshape : joinNl (splitNl (trimNl d)) ++ '\n' :: '\n' :: forgeTrailerLine X
            ++ ['\n']
            = ((joinNl (splitNl (trimNl d)) ++ ['\n', '\n']) ++ forgeTrailerLine X)
              ++ ['\n'] := by
          simp
        have htrim : trimNl (joinNl (splitNl (trimNl d)) ++ '\n' :: '\n' ::
            forgeTrailerLine X ++ ['\n'])
            = joinNl (splitNl (trimNl d)) ++ '\n' :: ('\n' :: forgeTrailerLine X) := by
          rw [hshape, trimNl_concat_nl, trimNl_append_no_nl _ _ hTne hTnl]
          simp
        have hset2 : setForgeLine X (splitNl (trimNl (joinNl (splitNl (trimNl d)) ++ '\n' ::
            '\n' :: forgeTrailerLine X ++ ['\n'])))
            = some (splitNl (trimNl d) ++ [[], forgeTrailerLine X]) := by
          rw [htrim, splitNl_joinNl_append _ _ hLnl hLne, splitNl_cons_nl,
            splitNl_eq_single _ hTnl]
          have hre : splitNl (trimNl d) ++ [[], forgeTrailerLine X]
              = (splitNl (trimNl d) ++ [[]]) ++ forgeTrailerLine X :: [] := by simp
          rw [hre]
          rw [setForgeLine_replace X _ [] _ (by
            intro l hl
            rcases List.mem_append.mp hl with h | h
            · exact hnokey l h
            · rw [List.mem_singleton.mp h]; exact hasForgeKey_nil) hTkey]
        rw [updateForge_of_some _ X _ hset2]
        rw [joinNl_append _ _ hLne (by simp)]
        simp [joinNl]

/-- The sequence of non-blank lines of a text: the claimed round-trip property
compares descriptions "up to blank-line normalization", i.e. modulo blank
lines; equality of the non-blank line sequences formalizes that tolerance. -/
def nonBlankLines (s : Str) : List Str :=
  (splitNl s).filter (fun l => !(trimSpace l).isEmpty)

/-- C5 counterexample: a clean description (single trailing newline, no
trailing whitespace irregularities) that already carries a forge-parent
trailer. The round-trip deletes that non-blank content line, so it does not
restore the original even up to blank-line normalization. -/
theorem c5_roundtrip_counterexample :
    RemoveForgeParent (UpdateForgeParent ("body\n\nforge-parent: old\n".toList)
        ("new".toList)) = "body\n".toList ∧
    nonBlankLines ("body\n\nforge-parent: old\n".toList)
      ≠ nonBlankLines ("body\n".toList) := by
  constructor
  · decide
  · decide

/-- C5 (amended): for every description none of whose lines carries the
forge-parent key and every newline-free parent id X,
`RemoveForgeParent (UpdateForgeParent description X)` equals the original
description with its trailing newlines normalized to exactly one; in
particular the original is restored byte-for-byte whenever it already ended
with exactly one newline. -/
theorem c5_roundtrip_normalized (d X : Str)
    (hd : ∀ l ∈ splitNl (trimNl d), hasForgeKey l = false) (hX : '\n' ∉ X) :
    RemoveForgeParent (UpdateForgeParent d X) = trimNl d ++ ['\n'] ∧
    (d = trimNl d ++ ['\n'] → RemoveForgeParent (UpdateForgeParent d X) = d) := by
  refine ⟨removeForge_updateForge d X hd hX, fun hnorm => ?_⟩
  rw [removeForge_updateForge d X hd hX, ← hnorm]

theorem c5_roundtrip_normalized_witness :
    RemoveForgeParent (UpdateForgeParent ("feat: add something\n".toList) ("abc123".toList))
      = trimNl ("feat: add something\n".toList) ++ ['\n'] :=
  (c5_roundtrip_normalized ("feat: add something\n".toList) ("abc123".toList)
    (by decide) (by decide)).1

/-- C6 counterexample: a description with no forge-parent trailer and no
trailing newline; `RemoveForgeParent` appends a newline, so the result is not
byte-for-byte identical to the input. -/
theorem c6_remove_counterexample :
    (∀ l ∈ splitNl (trimNl ("subject".toList)), hasForgeKey l = false) ∧
    RemoveForgeParent ("subject".toList) ≠ "subject".toList := by
  constructor
  · decide
  · decide

/-- C6 (amended): on a description none of whose lines carries the
forge-parent key, `RemoveForgeParent` returns the input with its trailing
newlines normalized to exactly one; the input is returned unchanged
byte-for-byte exactly when it already ends with exactly one newline. -/
theorem c6_remove_no_trailer (d : Str)
    (hd : ∀ l ∈ splitNl (trimNl d), hasForgeKey l = false) :
    RemoveForgeParent d = trimNl d ++ ['\n'] ∧
    (d = trimNl d ++ ['\n'] → RemoveForgeParent d = d) := by
  refine ⟨removeForge_no_key d hd, fun hnorm => ?_⟩
  rw [removeForge_no_key d hd, ← hnorm]

theorem c6_remove_no_trailer_witness :
    RemoveForgeParent ("feat: add something\n".toList)
      = trimNl ("feat: add something\n".toList) ++ ['\n'] :=
  (c6_remove_no_trailer ("feat: add something\n".toList) (by decide)).1

/-! Parser claim support. -/

theorem lineTrailerMatch_paren (t : Str) : lineTrailerMatch ('(' :: t) = none := by
  rw [lineTrailerMatch]
  simp [List.takeWhile_cons, show isKeyChar '(' = false from by decide]

theorem cherry_line_head (line : Str) (h : cherryMarker.isPrefixOf line = true) :
    ∃ t, line = '(' :: t := by
  cases line with
  | nil => exact absurd h (by decide)
  | cons c t =>
    refine ⟨t, ?_⟩
    have hm : cherryMarker = '(' :: "cherry picked from commit ".toList := by decide
    rw [hm, List.isPrefixOf_cons₂] at h
    rcases Bool.and_eq_true_iff.mp h with ⟨h1, _⟩
    rw [show ('(' == c) = decide ('(' = c) from rfl] at h1
    rw [← of_decide_eq_true h1]

/-- C7: lenient parsing needs a blank-line boundary: the two-trailer example
parses to exactly its trailers in order, every description whose backward scan
finds no blank line parses to the empty list, and the concrete no-blank-line
example does so. -/
theorem c7_blank_boundary :
    ParseDescriptionTrailers ("subject\n\nfoo: 1\nbar: 2\n".toList)
      = [⟨"foo".toList, "1".toList⟩, ⟨"bar".toList, "2".toList⟩] ∧
    (∀ d : Str, (parseTrailersImpl d).foundBlank = false →
      ParseDescriptionTrailers d = []) ∧
    ParseDescriptionTrailers ("subject\nfoo: 1\n".toList) = [] := by
  refine ⟨by decide, ?_, by decide⟩
  intro d h
  rw [ParseDescriptionTrailers]
  simp [h]

theorem c7_blank_boundary_witness :
    (parseTrailersImpl ("oneline".toList)).foundBlank = false ∧
    ParseDescriptionTrailers ("oneline".toList) = [] :=
  ⟨by decide, c7_blank_boundary.2.1 ("oneline".toList) (by decide)⟩

/-- C8: a cherry-pick line in the backward scan is never added to the trailer
list: the scan continues with the git-trailer flag set, the buffered
continuation lines discarded, and the accumulated trailers untouched; the
concrete example with a non-trailer line plus cherry-pick marker parses to
exactly its one trailer. -/
theorem c8_cherry_pick :
    (∀ (st : ScanState) (line : Str) (rest : List Str),
        cherryMarker.isPrefixOf line = true →
        scanLines (line :: rest) st =
          scanLines rest
            { st with
                foundGitTrailer := true
                nonTrailerLine := line
                multilineValue := [] }) ∧
    ParseDescriptionTrailers
        ("subject\n\nsome text\nfoo: bar\n(cherry picked from commit abc123)\n".toList)
      = [⟨"foo".toList, "bar".toList⟩] := by
  refine ⟨?_, by decide⟩
  intro st line rest h
  rcases cherry_line_head line h with ⟨t, rfl⟩
  rw [scanLines]
  rw [if_neg (by simp [List.isPrefixOf_cons₂])]
  rw [lineTrailerMatch_paren]
  rw [if_pos h]

theorem c8_cherry_pick_witness :
    scanLines (("(cherry picked from commit abc123)".toList) :: []) ⟨[], [], false, []⟩
      = scanLines []
          ⟨[], [], true, "(cherry picked from commit abc123)".toList⟩ :=
  c8_cherry_pick.1 ⟨[], [], false, []⟩ ("(cherry picked from commit abc123)".toList) []
    (by decide)

/-- C9 counterexample: with two non-trailer lines, the parser reports the one
encountered last in the backward scan (nearest the start of the text), not the
first-encountered one nearest the end as claimed; the strict-mode error
message carries that further-from-end line. -/
theorem c9_offending_counterexample :
    (parseTrailersImpl ("bad one\nbad two\n".toList)).nonTrailerLine = "bad one".toList ∧
    "bad one".toList ≠ "bad two".toList ∧
    ParseTrailers ("bad one\nbad two\n".toList)
      = .error ⟨.nonTrailer, "Invalid trailer line: bad one".toList⟩ := by
  refine ⟨by decide, by decide, by rfl⟩

/-- C9 (amended): every non-trailer line encountered by the backward scan
overwrites the recorded offending line, so the reported line is the last one
encountered scanning backward, i.e. the non-trailer line closest to the start
of the scanned block; the two-offender example reports the line nearer the
start. -/
theorem c9_offending_overwrites :
    (∀ (st : ScanState) (line : Str) (rest : List Str),
        [' '].isPrefixOf line = false →
        lineTrailerMatch line = none →
        cherryMarker.isPrefixOf line = false →
        trimSpace line ≠ [] →
        scanLines (line :: rest) st =
          scanLines rest { st with multilineValue := [], nonTrailerLine := line }) ∧
    (parseTrailersImpl ("bad one\nbad two\n".toList)).nonTrailerLine
      = "bad one".toList := by
  refine ⟨?_, by decide⟩
  intro st line rest h1 h2 h3 h4
  rw [scanLines, if_neg (by simp [h1]), h2, if_neg (by simp [h3]), if_neg h4]

theorem c9_offending_overwrites_witness :
    scanLines (("bad".toList) :: []) ⟨[], [], false, []⟩
      = scanLines [] ⟨[], [], false, "bad".toList⟩ :=
  c9_offending_overwrites.1 ⟨[], [], false, []⟩ ("bad".toList) []
    (by decide) (by decide) (by decide) (by decide)

/-! Submit pipeline lemmas. -/

theorem lookupRev_isSome_of_mem (l : List Rev) (r : Rev) (h : r ∈ l) :
    (lookupRev l r.id).isSome := by
  induction l with
  | nil => simp at h
  | cons x xs ih =>
    rw [lookupRev]
    rcases List.mem_cons.mp h with h1 | h1
    · subst h1
      cases hx : lookupRev xs r.id with
      | some y => simp
      | none => simp
    · cases hx : lookupRev xs r.id with
      | some y => simp
      | none =>
        have := ih h1
        rw [hx] at this
        simp at this

theorem ne_single_iff (l : List Str) (x : Str) :
    l ≠ [x] ↔ (l.length ≠ 1 ∨ l.head? ≠ some x) := by
  cases l with
  | nil => simp
  | cons a as =>
    cases as with
    | nil => simp
    | cons b bs => simp

theorem validateStack_conform (revmap : List Rev) (rev : Rev) (rest : List Rev)
    (expected : Str) (i : Nat) (hp : rev.parents = [expected])
    (hmap : (lookupRev revmap expected).isSome) :
    validateStack revmap (rev :: rest) expected i
      = validateStack revmap rest rev.id (i + 1) := by
  rw [validateStack]
  rw [if_neg (by rw [hp]; simp)]
  rw [if_neg (by rw [hp]; simp)]
  rw [if_neg (by simp [Option.isNone_iff_eq_none]; rcases Option.isSome_iff_exists.mp hmap
    with ⟨v, hv⟩; simp [hv])]

theorem validateStack_first_violation (revmap : List Rev) :
    ∀ (k : Nat) (L : List Rev) (i0 : Nat) (expected : Str) (rk : Rev) (p : Str),
    L[k]? = some rk →
    (∀ j r q, j < k → L[j]? = some r → expectedParentAt expected L j = some q →
      r.parents = [q]) →
    expectedParentAt expected L k = some p →
    rk.parents ≠ [p] →
    (lookupRev revmap expected).isSome →
    (∀ r ∈ L, (lookupRev revmap r.id).isSome) →
    ∃ e, validateStack revmap L expected i0 = some e ∧
      errPos e = some (i0 + k + 1) ∧ errId e = some rk.id := by
  intro k
  induction k with
  | zero =>
    intro L i0 expected rk p hk hconf hexp hviol hmap hmapL
    cases L with
    | nil => simp at hk
    | cons r0 rest =>
      have hr0 : r0 = rk := by simpa using hk
      subst hr0
      have hp : p = expected := by simpa [expectedParentAt] using hexp.symm
      subst hp
      rw [validateStack]
      by_cases hm : r0.parents.length > 1
      · exact ⟨_, by rw [if_pos hm], by simp [errPos], by simp [errId]⟩
      · rw [if_neg hm]
        rcases (ne_single_iff _ _).mp hviol with hv | hv
        · exact ⟨_, by rw [if_pos (Or.inl hv)], by simp [errPos], by simp [errId]⟩
        · exact ⟨_, by rw [if_pos (Or.inr hv)], by simp [errPos], by simp [errId]⟩
  | succ k ih =>
    intro L i0 expected rk p hk hconf hexp hviol hmap hmapL
    cases L with
    | nil => simp at hk
    | cons r0 rest =>
      have hr0 : r0.parents = [expected] :=
        hconf 0 r0 expected (Nat.succ_pos k) (by simp) (by simp [expectedParentAt])
      rw [validateStack_conform revmap r0 rest expected i0 hr0 hmap]
      have hexp2 : expectedParentAt r0.id rest k = some p := by
        cases k with
        | zero =>
          simp only [expectedParentAt] at hexp ⊢
          simpa using hexp
        | succ k0 =>
          simp only [expectedParentAt] at hexp ⊢
          simpa using hexp
      have hconf2 : ∀ j r q, j < k → rest[j]? = some r →
          expectedParentAt r0.id rest j = some q → r.parents = [q] := by
        intro j r q hj hr hq
        apply hconf (j + 1) r q (Nat.succ_lt_succ hj) (by simpa using hr)
        cases j with
        | zero =>
          simp only [expectedParentAt] at hq ⊢
          simpa using hq
        | succ j0 =>
          simp only [expectedParentAt] at hq ⊢
          simpa using hq
      rcases ih rest (i0 + 1) r0.id rk p (by simpa using hk) hconf2 hexp2 hviol
          (hmapL r0 (by simp)) (fun r hr => hmapL r (by simp [hr])) with ⟨e, h1, h2, h3⟩
      refine ⟨e, h1, ?_, h3⟩
      rw [h2]
      congr 1
      omega

/-- C2: if position k (0-based, parent-to-child order) is the first change
violating linearity — multiple parents, no parent, or a single parent that is
not the expected one (remote head for the first change, previous change's id
after) — then Submit returns a validation error carrying position k+1 and that
change's id, with a trace containing only the initial fetch and head query: no
bookmark move and no push is issued and no SubmitResult is produced. -/
theorem c2_validation_aborts (env : SubmitEnv) (branch remote : Str) (h rk : Rev)
    (k : Nat) (p : Str)
    (hh : env.initialHeads = [h])
    (hk : (env.stackRevs.reverse)[k]? = some rk)
    (hconf : ∀ j r q, j < k → (env.stackRevs.reverse)[j]? = some r →
      expectedParentAt h.id env.stackRevs.reverse j = some q → r.parents = [q])
    (hexp : expectedParentAt h.id env.stackRevs.reverse k = some p)
    (hviol : rk.parents ≠ [p]) :
    ∃ e, Submit env branch remote = (.error e, [SCmd.gitFetch, SCmd.queryHead]) ∧
      errPos e = some (k + 1) ∧ errId e = some rk.id := by
  have hne : env.stackRevs ≠ [] := by
    intro h0
    rw [h0] at hk
    simp at hk
  have hmap : (lookupRev (env.stackRevs ++ env.parentRevs ++ [h]) h.id).isSome :=
    lookupRev_isSome_of_mem _ h (by simp)
  have hmapL : ∀ r ∈ env.stackRevs.reverse,
      (lookupRev (env.stackRevs ++ env.parentRevs ++ [h]) r.id).isSome := by
    intro r hr
    exact lookupRev_isSome_of_mem _ r (by simp [List.mem_reverse.mp hr])
  rcases validateStack_first_violation (env.stackRevs ++ env.parentRevs ++ [h]) k
      env.stackRevs.reverse 0 h.id rk p hk hconf hexp hviol hmap hmapL with ⟨e, h1, h2, h3⟩
  refine ⟨e, ?_, by simpa using h2, h3⟩
  rw [Submit, hh]
  dsimp only
  rw [if_neg (by simpa using hne), h1]

theorem c2_validation_aborts_witness :
    ∃ e, Submit submitEnvMerge ("main".toList) ("og".toList)
        = (.error e, [SCmd.gitFetch, SCmd.queryHead]) ∧
      errPos e = some 2 ∧ errId e = some ("cccccccccccc".toList) :=
  c2_validation_aborts submitEnvMerge ("main".toList) ("og".toList) revRoot revMerge 1
    ("aaaaaaaaaaaa".toList) (by rfl) (by rfl)
    (by
      intro j r q hj hr hq
      have hj0 : j = 0 := by omega
      subst hj0
      have hx : (submitEnvMerge.stackRevs.reverse)[0]? = some revA := by rfl
      rw [hx] at hr
      obtain rfl : revA = r := Option.some.inj hr
      have hy : expectedParentAt revRoot.id submitEnvMerge.stackRevs.reverse 0
          = some revRoot.id := by rfl
      rw [hy] at hq
      obtain rfl : revRoot.id = q := Option.some.inj hq
      rfl)
    (by rfl) (by decide)

/-- The four trace entries recorded for one change in submit phase 4. -/
def submitBlock (branch remote : Str) (r : Rev) : List SCmd :=
  [SCmd.bookmarkSet branch r.id, SCmd.gitPush branch remote, SCmd.gitFetch, SCmd.queryHead]

theorem submitExec_abort (requery : Nat → List Rev) (branch remote : Str) :
    ∀ (k : Nat) (L : List Rev) (i0 : Nat) (rk u : Rev) (res : SubmitResult)
      (tr : List SCmd),
    L[k]? = some rk →
    (∀ j r, j < k → L[j]? = some r → (requery (i0 + j)).map Rev.id = [r.id]) →
    requery (i0 + k) = [u] → u.id ≠ rk.id →
    submitExec requery branch remote L i0 res tr =
      (.error (.remoteStateError rk.id u.id),
       tr ++ ((L.take (k + 1)).map (submitBlock branch remote)).flatten) := by
  intro k
  induction k with
  | zero =>
    intro L i0 rk u res tr hk hpre hq hne
    cases L with
    | nil => simp at hk
    | cons r0 rest =>
      obtain rfl : r0 = rk := by simpa using hk
      rw [submitExec]
      rw [show i0 + 0 = i0 from rfl] at hq
      rw [hq]
      dsimp only
      rw [if_pos hne]
      simp [submitBlock]
  | succ k ih =>
    intro L i0 rk u res tr hk hpre hq hne
    cases L with
    | nil => simp at hk
    | cons r0 rest =>
      have h0 : (requery i0).map Rev.id = [r0.id] := by
        simpa using hpre 0 r0 (Nat.succ_pos k) (by simp)
      obtain ⟨u0, hu0, hu0id⟩ : ∃ u0, requery i0 = [u0] ∧ u0.id = r0.id := by
        cases hc : requery i0 with
        | nil => rw [hc] at h0; simp at h0
        | cons a as =>
          rw [hc] at h0
          cases as with
          | nil => exact ⟨a, rfl, by simpa using h0⟩
          | cons b bs => simp at h0
      rw [submitExec, hu0]
      dsimp only
      rw [if_neg (by simp [hu0id])]
      have hrec := ih rest (i0 + 1) rk u { submitted := res.submitted + 1 }
        (tr ++ submitBlock branch remote r0) (by simpa using hk)
        (fun j r hj hr => by
          have := hpre (j + 1) r (Nat.succ_lt_succ hj) (by simpa using hr)
          rwa [show i0 + (j + 1) = i0 + 1 + j by omega] at this)
        (by rwa [show i0 + 1 + k = i0 + (k + 1) by omega]) hne
      rw [show tr ++ [SCmd.bookmarkSet branch r0.id, SCmd.gitPush branch remote,
          SCmd.gitFetch, SCmd.queryHead] = tr ++ submitBlock branch remote r0 from rfl]
      rw [hrec]
      simp [submitBlock]

/-- C1: when validation passes and the head re-queried after the (k+1)-th push
returns a single revision whose id differs from the change just pushed (all
earlier re-queries having confirmed their pushes), Submit aborts with the
remote-state error right after that push: the trace is exactly the initial
fetch and head query followed by one bookmark-move/push/fetch/re-query block
per change up to and including the failing one — every push is followed by a
head re-query, no bookmark move or push is issued for any later change, and
the earlier pushes remain in the trace with no compensating command after the
failing re-query. -/
theorem c1_remote_state_abort (env : SubmitEnv) (branch remote : Str) (h rk u : Rev)
    (k : Nat)
    (hh : env.initialHeads = [h])
    (hval : validateStack (env.stackRevs ++ env.parentRevs ++ [h])
        env.stackRevs.reverse h.id 0 = none)
    (hk : (env.stackRevs.reverse)[k]? = some rk)
    (hpre : ∀ j r, j < k → (env.stackRevs.reverse)[j]? = some r →
      (env.requery j).map Rev.id = [r.id])
    (hqk : env.requery k = [u]) (hne : u.id ≠ rk.id) :
    Submit env branch remote =
      (.error (.remoteStateError rk.id u.id),
       [SCmd.gitFetch, SCmd.queryHead] ++
         ((env.stackRevs.reverse.take (k + 1)).map (submitBlock branch remote)).flatten) := by
  have hnonempty : env.stackRevs ≠ [] := by
    intro h0
    rw [h0] at hk
    simp at hk
  rw [Submit, hh]
  dsimp only
  rw [if_neg (by simpa using hnonempty), hval]
  exact submitExec_abort env.requery branch remote k env.stackRevs.reverse 0 rk u ⟨0⟩
    [SCmd.gitFetch, SCmd.queryHead] hk (fun j r hj hr => by simpa using hpre j r hj hr)
    (by simpa using hqk) hne

/-- A concurrent writer moved the head to `zzzzzzzzzzzz` before the re-query
that follows the first push. -/
def revOther : Rev := ⟨"zzzzzzzzzzzz".toList, false, false, false, false, [], [], []⟩

def submitEnvRace : SubmitEnv where
  initialHeads := [revRoot]
  stackRevs := [revB, revA]
  parentRevs := [revRoot]
  requery _ := [revOther]

theorem c1_remote_state_abort_witness :
    Submit submitEnvRace ("main".toList) ("og".toList) =
      (.error (.remoteStateError ("aaaaaaaaaaaa".toList) ("zzzzzzzzzzzz".toList)),
       [SCmd.gitFetch, SCmd.queryHead] ++
         ((submitEnvRace.stackRevs.reverse.take 1).map
           (submitBlock ("main".toList) ("og".toList))).flatten) :=
  c1_remote_state_abort submitEnvRace ("main".toList) ("og".toList) revRoot revA revOther 0
    (by rfl) (by rfl) (by rfl) (fun j r hj hr => absurd hj (by omega)) (by rfl) (by decide)

/-! Upload parent-walk lemmas. -/

theorem findMutableParent_first (revmap : List Rev) (rid : Str) :
    ∀ (k : Nat) (ps : List Str) (pk : Str) (q : Rev),
    ps[k]? = some pk →
    (∀ j pj, j < k → ps[j]? = some pj →
      ∃ r, lookupRev revmap pj = some r ∧ r.isMutable = false) →
    lookupRev revmap pk = some q → q.isMutable = true →
    findMutableParent revmap rid ps = .ok q.id := by
  intro k
  induction k with
  | zero =>
    intro ps pk q hk hpre hq hmut
    cases ps with
    | nil => simp at hk
    | cons p0 rest =>
      obtain rfl : p0 = pk := by simpa using hk
      rw [findMutableParent, hq]
      dsimp only
      rw [if_pos hmut]
  | succ k ih =>
    intro ps pk q hk hpre hq hmut
    cases ps with
    | nil => simp at hk
    | cons p0 rest =>
      obtain ⟨r0, hr0, hr0im⟩ := hpre 0 p0 (Nat.succ_pos k) (by simp)
      rw [findMutableParent, hr0]
      dsimp only
      rw [if_neg (by simp [hr0im])]
      exact ih rest pk q (by simpa using hk)
        (fun j pj hj hpj => hpre (j + 1) pj (Nat.succ_lt_succ hj) (by simpa using hpj))
        hq hmut

theorem findMutableParent_all_immutable (revmap : List Rev) (rid : Str) :
    ∀ ps : List Str,
    (∀ p ∈ ps, ∃ r, lookupRev revmap p = some r ∧ r.isMutable = false) →
    findMutableParent revmap rid ps = .ok [] := by
  intro ps
  induction ps with
  | nil => intro _; rfl
  | cons p0 rest ih =>
    intro hall
    obtain ⟨r0, hr0, hr0im⟩ := hall p0 (by simp)
    rw [findMutableParent, hr0]
    dsimp only
    rw [if_neg (by simp [hr0im])]
    exact ih (fun p hp => hall p (by simp [hp]))

theorem findMutableParent_missing (revmap : List Rev) (rid : Str) :
    ∀ (k : Nat) (ps : List Str) (pk : Str),
    ps[k]? = some pk →
    (∀ j pj, j < k → ps[j]? = some pj →
      ∃ r, lookupRev revmap pj = some r ∧ r.isMutable = false) →
    lookupRev revmap pk = none →
    findMutableParent revmap rid ps = .error (pk, rid) := by
  intro k
  induction k with
  | zero =>
    intro ps pk hk hpre habs
    cases ps with
    | nil => simp at hk
    | cons p0 rest =>
      obtain rfl : p0 = pk := by simpa using hk
      rw [findMutableParent, habs]
  | succ k ih =>
    intro ps pk hk hpre habs
    cases ps with
    | nil => simp at hk
    | cons p0 rest =>
      obtain ⟨r0, hr0, hr0im⟩ := hpre 0 p0 (Nat.succ_pos k) (by simp)
      rw [findMutableParent, hr0]
      dsimp only
      rw [if_neg (by simp [hr0im])]
      exact ih rest pk (by simpa using hk)
        (fun j pj hj hpj => hpre (j + 1) pj (Nat.succ_lt_succ hj) (by simpa using hpj)) habs

theorem processRev_fatal (revmap : List Rev) (remote : Str) (rev : Rev)
    (e : Str × Str) (h1 : rev.isEmpty = false) (h2 : trimSpace rev.description ≠ [])
    (herr : findMutableParent revmap rev.id rev.parents = .error e) :
    processRev revmap remote rev = .error e := by
  rw [processRev, if_neg (by simp [h1]), if_neg h2, herr]

theorem uploadLoop_fatal (revmap : List Rev) (remote : Str) (rev : Rev)
    (rest : List Rev) (res : UploadResult) (tr : List Cmd) (e : Str × Str)
    (h : processRev revmap remote rev = .error e) :
    uploadLoop revmap remote (rev :: rest) res tr = .error (.missingParent e.1 e.2) := by
  rw [uploadLoop, h]

/-- C3 (amended): for a non-skipped change the parent walk visits the declared
parents in order and stops at the first mutable one: (i) if every parent
before position k is present in the map and immutable and the parent at k is
present and mutable (with nonempty id), the new description sets the trailer
to that parent's id; (ii) if every declared parent is present and immutable,
the trailer is removed; (iii) if a parent absent from the map is encountered
before any mutable parent, Upload aborts with the missing-parent consistency
error. A parent listed after the first mutable parent is never examined. -/
theorem c3_parent_walk :
    (∀ (revmap : List Rev) (rid d : Str) (k : Nat) (ps : List Str) (pk : Str) (q : Rev),
        ps[k]? = some pk →
        (∀ j pj, j < k → ps[j]? = some pj →
          ∃ r, lookupRev revmap pj = some r ∧ r.isMutable = false) →
        lookupRev revmap pk = some q → q.isMutable = true → q.id ≠ [] →
        findMutableParent revmap rid ps = .ok q.id ∧
          newDescriptionFor d q.id = UpdateForgeParent d q.id) ∧
    (∀ (revmap : List Rev) (rid d : Str) (ps : List Str),
        (∀ p ∈ ps, ∃ r, lookupRev revmap p = some r ∧ r.isMutable = false) →
        findMutableParent revmap rid ps = .ok [] ∧
          newDescriptionFor d [] = RemoveForgeParent d) ∧
    (∀ (revmap : List Rev) (remote : Str) (rev : Rev) (rest : List Rev)
        (res : UploadResult) (tr : List Cmd) (k : Nat) (pk : Str),
        rev.isEmpty = false → trimSpace rev.description ≠ [] →
        rev.parents[k]? = some pk →
        (∀ j pj, j < k → rev.parents[j]? = some pj →
          ∃ r, lookupRev revmap pj = some r ∧ r.isMutable = false) →
        lookupRev revmap pk = none →
        uploadLoop revmap remote (rev :: rest) res tr
          = .error (.missingParent pk rev.id)) := by
  refine ⟨?_, ?_, ?_⟩
  · intro revmap rid d k ps pk q hk hpre hq hmut hqid
    refine ⟨findMutableParent_first revmap rid k ps pk q hk hpre hq hmut, ?_⟩
    rw [newDescriptionFor, if_pos hqid]
  · intro revmap rid d ps hall
    exact ⟨findMutableParent_all_immutable revmap rid ps hall,
      by rw [newDescriptionFor, if_neg (by simp)]⟩
  · intro revmap remote rev rest res tr k pk h1 h2 hk hpre habs
    exact uploadLoop_fatal revmap remote rev rest res tr (pk, rev.id)
      (processRev_fatal revmap remote rev (pk, rev.id) h1 h2
        (findMutableParent_missing revmap rev.id k rev.parents pk hk hpre habs))

theorem c3_parent_walk_witness :
    findMutableParent [revRoot] ("xxxx".toList) ["root".toList] = .ok [] ∧
    newDescriptionFor ("W\n".toList) [] = RemoveForgeParent ("W\n".toList) :=
  c3_parent_walk.2.1 [revRoot] ("xxxx".toList) ("W\n".toList) ["root".toList]
    (by
      intro p hp
      rw [List.mem_singleton.mp hp]
      exact ⟨revRoot, by rfl, by rfl⟩)

/-- A mutable parent present in the map followed by a parent id absent from
the map: the walk stops at the first mutable parent and never sees the
missing one. -/
def revGhostRef : Rev :=
  ⟨"wwwwwwwwwwww".toList, true, false, false, false, "W\n".toList,
    ["aaaaaaaaaaaa".toList, "qqqqqqqqqqqq".toList], []⟩

/-- C3 counterexample: the change declares a parent id absent from the
resolved stack-plus-parents map, yet Upload succeeds, because the walk stops
at the earlier mutable parent. -/
theorem c3_missing_parent_counterexample :
    ("qqqqqqqqqqqq".toList ∈ revGhostRef.parents) ∧
    lookupRev ([revGhostRef, revA].reverse ++ [revRoot]) ("qqqqqqqqqqqq".toList) = none ∧
    (Upload [revGhostRef, revA] [revRoot] ("og".toList)).isOk = true := by
  exact ⟨by decide, by decide, by rfl⟩

theorem uploadLoop_count_invariant (revmap : List Rev) (remote : Str) :
    ∀ (L : List Rev) (res : UploadResult) (tr : List Cmd) (r : UploadResult)
      (t : List Cmd),
    uploadLoop revmap remote L res tr = .ok (r, t) →
    r.skipped + (res.skippedEmpty + res.skippedAnonymous + res.skippedSynced)
      = res.skipped + (r.skippedEmpty + r.skippedAnonymous + r.skippedSynced) ∧
    r.pushed + r.skipped = res.pushed + res.skipped + L.length := by
  intro L
  induction L with
  | nil =>
    intro res tr r t h
    rw [uploadLoop] at h
    obtain ⟨rfl, rfl⟩ : res = r ∧ tr = t := by
      have := Except.ok.inj h
      exact ⟨congrArg Prod.fst this, congrArg Prod.snd this⟩
    simp
  | cons rev rest ih =>
    intro res tr r t h
    rw [uploadLoop] at h
    cases hp : processRev revmap remote rev with
    | error e => rw [hp] at h; simp at h
    | ok oc =>
      rw [hp] at h
      obtain ⟨out, cmds⟩ := oc
      have := ih (bumpResult res out) (tr ++ cmds) r t h
      cases out <;>
        (simp only [bumpResult] at this; constructor <;> [omega; (simp; omega)])

/-- C10: every successful Upload returns counters with Skipped equal to
SkippedEmpty + SkippedAnonymous + SkippedSynced, and Pushed + Skipped equal to
the stack size, so each processed change contributes to exactly one of the
four per-change counters (and in particular to at most one). -/
theorem c10_upload_counts (stack pstack : List Rev) (remote : Str)
    (r : UploadResult) (t : List Cmd)
    (h : Upload stack pstack remote = .ok (r, t)) :
    r.skipped = r.skippedEmpty + r.skippedAnonymous + r.skippedSynced ∧
    r.pushed + r.skipped = stack.length := by
  rw [Upload] at h
  by_cases h0 : stack.reverse.isEmpty
  · rw [if_pos h0] at h
    obtain rfl : emptyUploadResult = r := by
      have := Except.ok.inj h
      exact congrArg Prod.fst this
    have : stack = [] := by simpa using h0
    subst this
    simp [emptyUploadResult]
  · rw [if_neg h0] at h
    have := uploadLoop_count_invariant (stack.reverse ++ pstack) remote stack.reverse
      emptyUploadResult [] r t h
    simp only [emptyUploadResult] at this
    obtain ⟨h1, h2⟩ := this
    refine ⟨by omega, ?_⟩
    rw [h2]
    simp [emptyUploadResult]

theorem c10_upload_counts_witness :
    (⟨2, 0, 0, 0, 0, 1⟩ : UploadResult).skipped = 0 + 0 + 0 ∧
    (⟨2, 0, 0, 0, 0, 1⟩ : UploadResult).pushed
        + (⟨2, 0, 0, 0, 0, 1⟩ : UploadResult).skipped
      = ([revB, revA] : List Rev).length :=
  c10_upload_counts [revB, revA] [revRoot] ("og".toList) ⟨2, 0, 0, 0, 0, 1⟩
    [.pushChange ("aaaaaaaaaaaa".toList) ("og".toList),
     .describe ("bbbbbbbbbbbb".toList) ("feat: B\n\nforge-parent: aaaaaaaaaaaa\n".toList),
     .pushChange ("bbbbbbbbbbbb".toList) ("og".toList)] (by rfl)

/-! Machinery for the two-run idempotence analysis. -/

/-- The change id an Upload command refers to. -/
def cmdId : Cmd → Str
  | .describe i _ => i
  | .pushChange i _ => i

/-- The effect of one command on a single revision snapshot. -/
def applyCmdRev (r : Rev) : Cmd → Rev
  | .describe i msg => if r.id = i then { r with description := msg } else r
  | .pushChange i rem =>
      if r.id = i then { r with remoteBookmarks := r.remoteBookmarks ++ [pushMarker rem i] }
      else r

/-- The effect of a command trace on a single revision snapshot. -/
def applyRev (t : List Cmd) (r : Rev) : Rev := t.foldl applyCmdRev r

theorem applyCmd_eq_map (revs : List Rev) (c : Cmd) :
    applyCmd revs c = revs.map (fun r => applyCmdRev r c) := by
  cases c <;> rfl

theorem applyCmds_eq_map (t : List Cmd) : ∀ revs : List Rev,
    applyCmds t revs = revs.map (applyRev t) := by
  induction t with
  | nil =>
    intro revs
    exact (List.map_id'' (fun r => rfl) revs).symm
  | cons c cs ih =>
    intro revs
    rw [applyCmds, List.foldl_cons, applyCmd_eq_map]
    rw [show List.foldl applyCmd (List.map (fun r => applyCmdRev r c) revs) cs
        = applyCmds cs (List.map (fun r => applyCmdRev r c) revs) from rfl]
    rw [ih, List.map_map]
    exact List.map_congr_left (fun r _ => rfl)

theorem applyRev_append (t1 t2 : List Cmd) (r : Rev) :
    applyRev (t1 ++ t2) r = applyRev t2 (applyRev t1 r) := by
  simp [applyRev, List.foldl_append]

theorem applyCmdRev_id (r : Rev) (c : Cmd) : (applyCmdRev r c).id = r.id := by
  cases c <;> (rw [applyCmdRev]; split <;> rfl)

theorem applyCmdRev_isMutable (r : Rev) (c : Cmd) :
    (applyCmdRev r c).isMutable = r.isMutable := by
  cases c <;> (rw [applyCmdRev]; split <;> rfl)

theorem applyCmdRev_isEmpty (r : Rev) (c : Cmd) :
    (applyCmdRev r c).isEmpty = r.isEmpty := by
  cases c <;> (rw [applyCmdRev]; split <;> rfl)

theorem applyCmdRev_parents (r : Rev) (c : Cmd) :
    (applyCmdRev r c).parents = r.parents := by
  cases c <;> (rw [applyCmdRev]; split <;> rfl)

theorem applyRev_id (t : List Cmd) : ∀ r : Rev, (applyRev t r).id = r.id := by
  induction t with
  | nil => intro r; rfl
  | cons c cs ih =>
    intro r
    rw [show applyRev (c :: cs) r = applyRev cs (applyCmdRev r c) from rfl]
    rw [ih, applyCmdRev_id]

theorem applyRev_isMutable (t : List Cmd) : ∀ r : Rev,
    (applyRev t r).isMutable = r.isMutable := by
  induction t with
  | nil => intro r; rfl
  | cons c cs ih =>
    intro r
    rw [show applyRev (c :: cs) r = applyRev cs (applyCmdRev r c) from rfl]
    rw [ih, applyCmdRev_isMutable]

theorem applyRev_isEmpty (t : List Cmd) : ∀ r : Rev,
    (applyRev t r).isEmpty = r.isEmpty := by
  induction t with
  | nil => intro r; rfl
  | cons c cs ih =>
    intro r
    rw [show applyRev (c :: cs) r = applyRev cs (applyCmdRev r c) from rfl]
    rw [ih, applyCmdRev_isEmpty]

theorem applyRev_parents (t : List Cmd) : ∀ r : Rev,
    (applyRev t r).parents = r.parents := by
  induction t with
  | nil => intro r; rfl
  | cons c cs ih =>
    intro r
    rw [show applyRev (c :: cs) r = applyRev cs (applyCmdRev r c) from rfl]
    rw [ih, applyCmdRev_parents]

theorem applyRev_no_op (t : List Cmd) : ∀ r : Rev,
    (∀ c ∈ t, cmdId c ≠ r.id) → applyRev t r = r := by
  induction t with
  | nil => intro r _; rfl
  | cons c cs ih =>
    intro r h
    rw [show applyRev (c :: cs) r = applyRev cs (applyCmdRev r c) from rfl]
    have hc : applyCmdRev r c = r := by
      have := h c (by simp)
      cases c with
      | describe i msg => rw [applyCmdRev, if_neg (fun hh => this (by simp [cmdId, hh]))]
      | pushChange i rem => rw [applyCmdRev, if_neg (fun hh => this (by simp [cmdId, hh]))]
    rw [hc]
    exact ih r (fun c2 hc2 => h c2 (by simp [hc2]))

theorem lookupRev_map (f : Rev → Rev) (hid : ∀ r, (f r).id = r.id) :
    ∀ (l : List Rev) (i : Str), lookupRev (l.map f) i = (lookupRev l i).map f := by
  intro l
  induction l with
  | nil => intro i; rfl
  | cons x xs ih =>
    intro i
    rw [List.map_cons, lookupRev, lookupRev, ih]
    cases hx : lookupRev xs i with
    | some y => rfl
    | none =>
      simp only [Option.map_none']
      rw [hid x]
      split <;> rfl

theorem findMutableParent_map (f : Rev → Rev) (hid : ∀ r, (f r).id = r.id)
    (hmut : ∀ r, (f r).isMutable = r.isMutable) (revmap : List Rev) (rid : Str) :
    ∀ ps : List Str,
    findMutableParent (revmap.map f) rid ps = findMutableParent revmap rid ps := by
  intro ps
  induction ps with
  | nil => rfl
  | cons p rest ih =>
    rw [findMutableParent, findMutableParent, lookupRev_map f hid]
    cases hl : lookupRev revmap p with
    | none => rfl
    | some q =>
      simp only [Option.map_some']
      rw [hmut q, hid q]
      split <;> [rfl; exact ih]

theorem lookupRev_mem : ∀ (l : List Rev) (i : Str) (r : Rev),
    lookupRev l i = some r → r ∈ l := by
  intro l
  induction l with
  | nil => intro i r h; simp [lookupRev] at h
  | cons x xs ih =>
    intro i r h
    rw [lookupRev] at h
    cases hx : lookupRev xs i with
    | some y =>
      rw [hx] at h
      dsimp only at h
      exact List.mem_cons_of_mem _ (ih i r (hx.trans h))
    | none =>
      rw [hx] at h
      dsimp only at h
      split at h
      · rw [← Option.some.inj h]
        exact List.mem_cons_self x xs
      · simp at h

theorem findMutableParent_ok_mem (revmap : List Rev) (rid : Str) :
    ∀ (ps : List Str) (mpid : Str),
    findMutableParent revmap rid ps = .ok mpid → mpid ≠ [] →
    ∃ r ∈ revmap, r.id = mpid := by
  intro ps
  induction ps with
  | nil =>
    intro mpid h hne
    rw [findMutableParent] at h
    exact absurd (Except.ok.inj h).symm hne
  | cons p rest ih =>
    intro mpid h hne
    rw [findMutableParent] at h
    cases hl : lookupRev revmap p with
    | none => rw [hl] at h; simp at h
    | some q =>
      rw [hl] at h
      dsimp only at h
      by_cases hm : q.isMutable = true
      · rw [if_pos hm] at h
        exact ⟨q, lookupRev_mem revmap p q hl, Except.ok.inj h⟩
      · rw [if_neg hm] at h
        exact ih mpid h hne

/-! Branch evaluation lemmas for `processRev` and the per-change trace. -/

theorem processRev_eq_skipEmpty (revmap : List Rev) (remote : Str) (rev : Rev)
    (h : rev.isEmpty = true) : processRev revmap remote rev = .ok (.skipEmpty, []) := by
  rw [processRev, if_pos h]

theorem processRev_eq_skipAnon (revmap : List Rev) (remote : Str) (rev : Rev)
    (h1 : rev.isEmpty = false) (h2 : trimSpace rev.description = []) :
    processRev revmap remote rev = .ok (.skipAnonymous, []) := by
  rw [processRev, if_neg (by simp [h1]), if_pos h2]

theorem processRev_eq_described (revmap : List Rev) (remote : Str) (rev : Rev)
    (mpid : Str) (h1 : rev.isEmpty = false) (h2 : trimSpace rev.description ≠ [])
    (h3 : findMutableParent revmap rev.id rev.parents = .ok mpid)
    (h4 : newDescriptionFor rev.description mpid ≠ rev.description) :
    processRev revmap remote rev =
      .ok (.describedPushed,
        [.describe rev.id (newDescriptionFor rev.description mpid),
         .pushChange rev.id remote]) := by
  rw [processRev, if_neg (by simp [h1]), if_neg h2, h3]
  dsimp only
  rw [if_pos h4]

theorem processRev_eq_skipSynced (revmap : List Rev) (remote : Str) (rev : Rev)
    (mpid : Str) (h1 : rev.isEmpty = false) (h2 : trimSpace rev.description ≠ [])
    (h3 : findMutableParent revmap rev.id rev.parents = .ok mpid)
    (h4 : newDescriptionFor rev.description mpid = rev.description)
    (h5 : pushMarker remote rev.id ∈ rev.remoteBookmarks) :
    processRev revmap remote rev = .ok (.skipSynced, []) := by
  rw [processRev, if_neg (by simp [h1]), if_neg h2, h3]
  dsimp only
  rw [if_neg (by simp [h4]), if_pos h5]

theorem processRev_eq_pushed (revmap : List Rev) (remote : Str) (rev : Rev)
    (mpid : Str) (h1 : rev.isEmpty = false) (h2 : trimSpace rev.description ≠ [])
    (h3 : findMutableParent revmap rev.id rev.parents = .ok mpid)
    (h4 : newDescriptionFor rev.description mpid = rev.description)
    (h5 : pushMarker remote rev.id ∉ rev.remoteBookmarks) :
    processRev revmap remote rev = .ok (.pushedOnly, [.pushChange rev.id remote]) := by
  rw [processRev, if_neg (by simp [h1]), if_neg h2, h3]
  dsimp only
  rw [if_neg (by simp [h4]), if_neg h5]

/-- Exhaustive branch analysis of `processRev`. -/
theorem processRev_cases (revmap : List Rev) (remote : Str) (rev : Rev) :
    (rev.isEmpty = true ∧ processRev revmap remote rev = .ok (.skipEmpty, [])) ∨
    (rev.isEmpty = false ∧ trimSpace rev.description = [] ∧
      processRev revmap remote rev = .ok (.skipAnonymous, [])) ∨
    (∃ e, rev.isEmpty = false ∧ trimSpace rev.description ≠ [] ∧
      findMutableParent revmap rev.id rev.parents = .error e ∧
      processRev revmap remote rev = .error e) ∨
    (∃ mpid, rev.isEmpty = false ∧ trimSpace rev.description ≠ [] ∧
      findMutableParent revmap rev.id rev.parents = .ok mpid ∧
      ((newDescriptionFor rev.description mpid ≠ rev.description ∧
        processRev revmap remote rev =
          .ok (.describedPushed,
            [.describe rev.id (newDescriptionFor rev.description mpid),
             .pushChange rev.id remote])) ∨
       (newDescriptionFor rev.description mpid = rev.description ∧
        pushMarker remote rev.id ∈ rev.remoteBookmarks ∧
        processRev revmap remote rev = .ok (.skipSynced, [])) ∨
       (newDescriptionFor rev.description mpid = rev.description ∧
        pushMarker remote rev.id ∉ rev.remoteBookmarks ∧
        processRev revmap remote rev = .ok (.pushedOnly, [.pushChange rev.id remote])))) := by
  by_cases h1 : rev.isEmpty = true
  · exact Or.inl ⟨h1, processRev_eq_skipEmpty revmap remote rev h1⟩
  · have h1f : rev.isEmpty = false := by simpa using h1
    by_cases h2 : trimSpace rev.description = []
    · exact Or.inr (Or.inl ⟨h1f, h2, processRev_eq_skipAnon revmap remote rev h1f h2⟩)
    · cases h3 : findMutableParent revmap rev.id rev.parents with
      | error e =>
        refine Or.inr (Or.inr (Or.inl ⟨e, h1f, h2, rfl, ?_⟩))
        exact processRev_fatal revmap remote rev e h1f h2 h3
      | ok mpid =>
        refine Or.inr (Or.inr (Or.inr ⟨mpid, h1f, h2, rfl, ?_⟩))
        by_cases h4 : newDescriptionFor rev.description mpid = rev.description
        · by_cases h5 : pushMarker remote rev.id ∈ rev.remoteBookmarks
          · exact Or.inr (Or.inl ⟨h4, h5,
              processRev_eq_skipSynced revmap remote rev mpid h1f h2 h3 h4 h5⟩)
          · exact Or.inr (Or.inr ⟨h4, h5,
              processRev_eq_pushed revmap remote rev mpid h1f h2 h3 h4 h5⟩)
        · exact Or.inl ⟨h4, processRev_eq_described revmap remote rev mpid h1f h2 h3 h4⟩

/-- The commands the Upload loop issues for one change (empty on error). -/
def cmdsOf (revmap : List Rev) (remote : Str) (rev : Rev) : List Cmd :=
  match processRev revmap remote rev with
  | .ok (_, cmds) => cmds
  | .error _ => []

theorem cmdsOf_ids (revmap : List Rev) (remote : Str) (rev : Rev) :
    ∀ c ∈ cmdsOf revmap remote rev, cmdId c = rev.id := by
  intro c hc
  rcases processRev_cases revmap remote rev with ⟨_, hp⟩ | ⟨_, _, hp⟩ |
      ⟨e, _, _, _, hp⟩ | ⟨mpid, _, _, _, ⟨_, hp⟩ | ⟨_, _, hp⟩ | ⟨_, _, hp⟩⟩ <;>
    rw [cmdsOf, hp] at hc
  · simp at hc
  · simp at hc
  · simp at hc
  · rcases List.mem_cons.mp hc with h | h
    · rw [h]; rfl
    · rw [List.mem_singleton.mp h]; rfl
  · simp at hc
  · rw [List.mem_singleton.mp hc]; rfl

theorem uploadLoop_trace (revmap : List Rev) (remote : Str) :
    ∀ (L : List Rev) (res : UploadResult) (tr : List Cmd) (r : UploadResult)
      (t : List Cmd),
    uploadLoop revmap remote L res tr = .ok (r, t) →
    t = tr ++ ((L.map (cmdsOf revmap remote)).flatten) := by
  intro L
  induction L with
  | nil =>
    intro res tr r t h
    rw [uploadLoop] at h
    have := congrArg Prod.snd (Except.ok.inj h)
    simpa using this.symm
  | cons rev rest ih =>
    intro res tr r t h
    rw [uploadLoop] at h
    cases hp : processRev revmap remote rev with
    | error e => rw [hp] at h; simp at h
    | ok oc =>
      rw [hp] at h
      obtain ⟨out, cmds⟩ := oc
      have := ih (bumpResult res out) (tr ++ cmds) r t h
      rw [this, List.map_cons, List.flatten_cons]
      rw [show cmdsOf revmap remote rev = cmds from by rw [cmdsOf, hp]]
      simp

theorem applyRev_flatten_blocks (f : Rev → List Cmd)
    (hf : ∀ r c, c ∈ f r → cmdId c = r.id) :
    ∀ (L : List Rev) (rev : Rev),
    (L.map Rev.id).Nodup → rev ∈ L →
    applyRev ((L.map f).flatten) rev = applyRev (f rev) rev := by
  intro L
  induction L with
  | nil => intro rev _ h; simp at h
  | cons x xs ih =>
    intro rev hnd hmem
    rw [List.map_cons, List.flatten_cons, applyRev_append]
    rcases List.mem_cons.mp hmem with h | h
    · subst h
      have hothers : ∀ c ∈ (xs.map f).flatten, cmdId c ≠ (applyRev (f rev) rev).id := by
        intro c hc
        rw [applyRev_id]
        rcases List.mem_flatten.mp hc with ⟨block, hb, hcb⟩
        rcases List.mem_map.mp hb with ⟨r2, hr2, rfl⟩
        rw [hf r2 c hcb]
        intro hcon
        have : rev.id ∈ xs.map Rev.id := List.mem_map.mpr ⟨r2, hr2, hcon⟩
        exact (List.nodup_cons.mp hnd).1 this
      rw [applyRev_no_op _ _ hothers]
    · have hxne : ∀ c ∈ f x, cmdId c ≠ rev.id := by
        intro c hc
        rw [hf x c hc]
        intro hcon
        have : rev.id ∈ xs.map Rev.id := List.mem_map.mpr ⟨rev, h, rfl⟩
        rw [← hcon] at this
        exact (List.nodup_cons.mp hnd).1 this
      rw [applyRev_no_op _ _ hxne]
      exact ih rev (List.nodup_cons.mp hnd).2 h

theorem uploadLoop_ok_mem (revmap : List Rev) (remote : Str) :
    ∀ (L : List Rev) (res : UploadResult) (tr : List Cmd) (r : UploadResult)
      (t : List Cmd),
    uploadLoop revmap remote L res tr = .ok (r, t) →
    ∀ rev ∈ L, ∃ out cmds, processRev revmap remote rev = .ok (out, cmds) := by
  intro L
  induction L with
  | nil => intro res tr r t _ rev hmem; simp at hmem
  | cons rev0 rest ih =>
    intro res tr r t h rev hmem
    rw [uploadLoop] at h
    cases hp : processRev revmap remote rev0 with
    | error e => rw [hp] at h; simp at h
    | ok oc =>
      rw [hp] at h
      obtain ⟨out, cmds⟩ := oc
      rcases List.mem_cons.mp hmem with h1 | h1
      · exact ⟨out, cmds, h1 ▸ hp⟩
      · exact ih (bumpResult res out) (tr ++ cmds) r t h rev h1

theorem processRev_second (revmap revmap2 : List Rev) (remote : Str) (rev : Rev)
    (out : UploadOutcome) (cmds : List Cmd)
    (hmapEq : ∀ rid ps, findMutableParent revmap2 rid ps = findMutableParent revmap rid ps)
    (hnlmp : ∀ mpid rid ps, findMutableParent revmap rid ps = Except.ok mpid → mpid ≠ [] →
      ('\n' : Char) ∉ mpid)
    (h : processRev revmap remote rev = .ok (out, cmds)) :
    ∃ out2, processRev revmap2 remote (applyRev cmds rev) = .ok (out2, []) ∧
      out2 ≠ .pushedOnly ∧ out2 ≠ .describedPushed := by
  rcases processRev_cases revmap remote rev with ⟨he, hp⟩ | ⟨he, ha, hp⟩ |
      ⟨e, _, _, _, hp⟩ | ⟨mpid, he, ha, hm, hbr⟩
  · rw [hp] at h
    obtain ⟨rfl, rfl⟩ : UploadOutcome.skipEmpty = out ∧ ([] : List Cmd) = cmds :=
      ⟨congrArg Prod.fst (Except.ok.inj h), congrArg Prod.snd (Except.ok.inj h)⟩
    exact ⟨.skipEmpty, processRev_eq_skipEmpty revmap2 remote _ (by simpa [applyRev] using he),
      by simp, by simp⟩
  · rw [hp] at h
    obtain ⟨rfl, rfl⟩ : UploadOutcome.skipAnonymous = out ∧ ([] : List Cmd) = cmds :=
      ⟨congrArg Prod.fst (Except.ok.inj h), congrArg Prod.snd (Except.ok.inj h)⟩
    exact ⟨.skipAnonymous,
      processRev_eq_skipAnon revmap2 remote _ (by simpa [applyRev] using he)
        (by simpa [applyRev] using ha), by simp, by simp⟩
  · rw [hp] at h; simp at h
  · have hnlm : mpid ≠ [] → ('\n' : Char) ∉ mpid := hnlmp mpid rev.id rev.parents hm
    have hfix : newDescriptionFor (newDescriptionFor rev.description mpid) mpid
        = newDescriptionFor rev.description mpid := by
      by_cases hmp : mpid = []
      · subst hmp
        have h0 : newDescriptionFor rev.description [] = RemoveForgeParent rev.description := by
          rw [newDescriptionFor, if_neg (by simp)]
        rw [h0, newDescriptionFor, if_neg (by simp)]
        exact removeForge_fixpoint rev.description
      · have h0 : newDescriptionFor rev.description mpid
            = UpdateForgeParent rev.description mpid := by
          rw [newDescriptionFor, if_pos hmp]
        rw [h0, newDescriptionFor, if_pos hmp]
        exact updateForge_fixpoint rev.description mpid (hnlm hmp)
    rcases hbr with ⟨hne, hp⟩ | ⟨heq, hmark, hp⟩ | ⟨heq, hmark, hp⟩
    · rw [hp] at h
      obtain ⟨rfl, rfl⟩ : UploadOutcome.describedPushed = out ∧
          ([Cmd.describe rev.id (newDescriptionFor rev.description mpid),
            Cmd.pushChange rev.id remote] : List Cmd) = cmds :=
        ⟨congrArg Prod.fst (Except.ok.inj h), congrArg Prod.snd (Except.ok.inj h)⟩
      have hrev2 : applyRev [Cmd.describe rev.id (newDescriptionFor rev.description mpid),
            Cmd.pushChange rev.id remote] rev
          = { rev with
                description := newDescriptionFor rev.description mpid
                remoteBookmarks := rev.remoteBookmarks ++ [pushMarker remote rev.id] } := by
        simp [applyRev, applyCmdRev]
      rw [hrev2]
      by_cases hanon : trimSpace (newDescriptionFor rev.description mpid) = []
      · exact ⟨.skipAnonymous, processRev_eq_skipAnon revmap2 remote _ he hanon,
          by simp, by simp⟩
      · refine ⟨.skipSynced, ?_, by simp, by simp⟩
        refine processRev_eq_skipSynced revmap2 remote _ mpid he hanon ?_ ?_ ?_
        · show findMutableParent revmap2 rev.id rev.parents = Except.ok mpid
          rw [hmapEq]
          exact hm
        · show newDescriptionFor (newDescriptionFor rev.description mpid) mpid
            = newDescriptionFor rev.description mpid
          exact hfix
        · show pushMarker remote rev.id
            ∈ rev.remoteBookmarks ++ [pushMarker remote rev.id]
          exact List.mem_append_right _ (by simp)
    · rw [hp] at h
      obtain ⟨rfl, rfl⟩ : UploadOutcome.skipSynced = out ∧ ([] : List Cmd) = cmds :=
        ⟨congrArg Prod.fst (Except.ok.inj h), congrArg Prod.snd (Except.ok.inj h)⟩
      refine ⟨.skipSynced, ?_, by simp, by simp⟩
      rw [show applyRev [] rev = rev from rfl]
      refine processRev_eq_skipSynced revmap2 remote rev mpid he ha ?_ heq hmark
      rw [hmapEq]
      exact hm
    · rw [hp] at h
      obtain ⟨rfl, rfl⟩ : UploadOutcome.pushedOnly = out ∧
          ([Cmd.pushChange rev.id remote] : List Cmd) = cmds :=
        ⟨congrArg Prod.fst (Except.ok.inj h), congrArg Prod.snd (Except.ok.inj h)⟩
      have hrev2 : applyRev [Cmd.pushChange rev.id remote] rev
          = { rev with remoteBookmarks := rev.remoteBookmarks
                ++ [pushMarker remote rev.id] } := by
        simp [applyRev, applyCmdRev]
      rw [hrev2]
      refine ⟨.skipSynced, ?_, by simp, by simp⟩
      refine processRev_eq_skipSynced revmap2 remote _ mpid he ha ?_ ?_ ?_
      · show findMutableParent revmap2 rev.id rev.parents = Except.ok mpid
        rw [hmapEq]
        exact hm
      · show newDescriptionFor rev.description mpid = rev.description
        exact heq
      · show pushMarker remote rev.id ∈ rev.remoteBookmarks ++ [pushMarker remote rev.id]
        exact List.mem_append_right _ (by simp)

theorem uploadLoop_skips (revmap2 : List Rev) (remote : Str) :
    ∀ (L : List Rev) (res : UploadResult) (tr : List Cmd),
    (∀ rev ∈ L, ∃ out2, processRev revmap2 remote rev = .ok (out2, []) ∧
      out2 ≠ .pushedOnly ∧ out2 ≠ .describedPushed) →
    ∃ r2, uploadLoop revmap2 remote L res tr = .ok (r2, tr) ∧
      r2.pushed = res.pushed ∧
      r2.skippedSynced + r2.skippedEmpty + r2.skippedAnonymous
        = res.skippedSynced + res.skippedEmpty + res.skippedAnonymous + L.length := by
  intro L
  induction L with
  | nil =>
    intro res tr _
    exact ⟨res, by rw [uploadLoop], rfl, by simp⟩
  | cons rev rest ih =>
    intro res tr hall
    obtain ⟨out2, hp, hne1, hne2⟩ := hall rev (by simp)
    obtain ⟨r2, hloop, hpush, hsum⟩ := ih (bumpResult res out2) tr
      (fun rv hv => hall rv (by simp [hv]))
    refine ⟨r2, ?_, ?_, ?_⟩
    · rw [uploadLoop, hp]
      simpa using hloop
    · rw [hpush]
      cases out2 with
      | pushedOnly => exact absurd rfl hne1
      | describedPushed => exact absurd rfl hne2
      | skipEmpty => rfl
      | skipAnonymous => rfl
      | skipSynced => rfl
    · rw [hsum]
      cases out2 with
      | pushedOnly => exact absurd rfl hne1
      | describedPushed => exact absurd rfl hne2
      | skipEmpty => simp [bumpResult]; omega
      | skipAnonymous => simp [bumpResult]; omega
      | skipSynced => simp [bumpResult]; omega

/-- C4: (a) for every non-skipped change whose computed new description equals
its current one and whose remote pointers contain the push marker for its own
id, the Upload loop issues no command, counts the change as SkippedSynced, and
moves on; (b) re-running Upload on the same stack after a successful run, with
only the run's own commands applied to the snapshots (the spec's effect model
for describe and push), issues no commands at all — in particular zero
pushes — and its SkippedSynced, SkippedEmpty and SkippedAnonymous counters
together account for the whole stack, with SkippedSynced covering every change
that is neither empty nor anonymous on the second run. -/
theorem c4_upload_idempotent :
    (∀ (revmap : List Rev) (remote : Str) (rev : Rev) (rest : List Rev)
        (res : UploadResult) (tr : List Cmd) (mpid : Str),
        rev.isEmpty = false → trimSpace rev.description ≠ [] →
        findMutableParent revmap rev.id rev.parents = .ok mpid →
        newDescriptionFor rev.description mpid = rev.description →
        pushMarker remote rev.id ∈ rev.remoteBookmarks →
        processRev revmap remote rev = .ok (.skipSynced, []) ∧
        uploadLoop revmap remote (rev :: rest) res tr
          = uploadLoop revmap remote rest (bumpResult res .skipSynced) tr) ∧
    (∀ (stack pstack : List Rev) (remote : Str) (r1 : UploadResult) (t1 : List Cmd),
        (stack.map Rev.id).Nodup →
        (∀ r ∈ stack ++ pstack, ('\n' : Char) ∉ r.id) →
        Upload stack pstack remote = .ok (r1, t1) →
        ∃ r2, Upload (applyCmds t1 stack) (applyCmds t1 pstack) remote = .ok (r2, []) ∧
          r2.pushed = 0 ∧
          r2.skippedSynced + r2.skippedEmpty + r2.skippedAnonymous = stack.length) := by
  constructor
  · intro revmap remote rev rest res tr mpid h1 h2 h3 h4 h5
    have hsync := processRev_eq_skipSynced revmap remote rev mpid h1 h2 h3 h4 h5
    refine ⟨hsync, ?_⟩
    rw [uploadLoop, hsync]
    dsimp only
    rw [List.append_nil]
  · intro stack pstack remote r1 t1 hnd hnl h
    rw [show Upload stack pstack remote
        = (if stack.reverse.isEmpty then Except.ok (emptyUploadResult, ([] : List Cmd))
           else uploadLoop (stack.reverse ++ pstack) remote stack.reverse
             emptyUploadResult []) from rfl] at h
    by_cases h0 : stack.reverse.isEmpty
    · rw [if_pos h0] at h
      have hstack : stack = [] := by simpa using h0
      subst hstack
      obtain ⟨rfl, rfl⟩ : emptyUploadResult = r1 ∧ ([] : List Cmd) = t1 :=
        ⟨congrArg Prod.fst (Except.ok.inj h), congrArg Prod.snd (Except.ok.inj h)⟩
      refine ⟨emptyUploadResult, ?_, rfl, rfl⟩
      rw [applyCmds_eq_map, List.map_nil]
      rw [show Upload [] (applyCmds [] pstack) remote
          = Except.ok (emptyUploadResult, ([] : List Cmd)) from rfl]
    · rw [if_neg h0] at h
      have hsne : stack ≠ [] := by
        intro hh
        subst hh
        simp at h0
      have htr := uploadLoop_trace (stack.reverse ++ pstack) remote stack.reverse
        emptyUploadResult [] r1 t1 h
      rw [List.nil_append] at htr
      have hok := uploadLoop_ok_mem (stack.reverse ++ pstack) remote stack.reverse
        emptyUploadResult [] r1 t1 h
      have hmapf : ∀ r ∈ stack.reverse ++ pstack, ('\n' : Char) ∉ r.id := by
        intro r hr
        rcases List.mem_append.mp hr with hr1 | hr1
        · exact hnl r (List.mem_append_left _ (List.mem_reverse.mp hr1))
        · exact hnl r (List.mem_append_right _ hr1)
      have hnlmp : ∀ mpid rid ps,
          findMutableParent (stack.reverse ++ pstack) rid ps = Except.ok mpid →
          mpid ≠ [] → ('\n' : Char) ∉ mpid := by
        intro mpid rid ps hfm hne
        obtain ⟨r, hrm, hrid⟩ := findMutableParent_ok_mem _ rid ps mpid hfm hne
        exact hrid ▸ hmapf r hrm
      have hs2 : applyCmds t1 stack = stack.map (applyRev t1) := applyCmds_eq_map t1 stack
      have hp2 : applyCmds t1 pstack = pstack.map (applyRev t1) := applyCmds_eq_map t1 pstack
      have hrm2 : (applyCmds t1 stack).reverse ++ applyCmds t1 pstack
          = (stack.reverse ++ pstack).map (applyRev t1) := by
        rw [hs2, hp2, List.map_append, List.map_reverse]
      have hmapEq : ∀ rid ps,
          findMutableParent ((stack.reverse ++ pstack).map (applyRev t1)) rid ps
            = findMutableParent (stack.reverse ++ pstack) rid ps :=
        fun rid ps => findMutableParent_map (applyRev t1) (applyRev_id t1)
          (applyRev_isMutable t1) _ rid ps
      have hndR : (stack.reverse.map Rev.id).Nodup := by
        rw [List.map_reverse]
        exact List.nodup_reverse.mpr hnd
      have happly : ∀ rev ∈ stack.reverse,
          applyRev t1 rev = applyRev (cmdsOf (stack.reverse ++ pstack) remote rev) rev := by
        intro rev hrev
        rw [htr]
        exact applyRev_flatten_blocks (cmdsOf (stack.reverse ++ pstack) remote)
          (fun r c hc => cmdsOf_ids _ remote r c hc) stack.reverse rev hndR hrev
      have hall : ∀ rev2 ∈ (applyCmds t1 stack).reverse, ∃ out2,
          processRev ((stack.reverse ++ pstack).map (applyRev t1)) remote rev2
            = .ok (out2, []) ∧
          out2 ≠ .pushedOnly ∧ out2 ≠ .describedPushed := by
        intro rev2 hrev2
        rw [hs2] at hrev2
        obtain ⟨rev, hrevs, rfl⟩ := List.mem_map.mp (List.mem_reverse.mp hrev2)
        have hrevR : rev ∈ stack.reverse := List.mem_reverse.mpr hrevs
        obtain ⟨out, cmds, hpr⟩ := hok rev hrevR
        have hc : cmdsOf (stack.reverse ++ pstack) remote rev = cmds := by
          rw [cmdsOf, hpr]
        rw [happly rev hrevR, hc]
        exact processRev_second (stack.reverse ++ pstack) _ remote rev out cmds
          hmapEq hnlmp hpr
      obtain ⟨r2, hloop, hpush, hsum⟩ := uploadLoop_skips
        ((stack.reverse ++ pstack).map (applyRev t1)) remote
        (applyCmds t1 stack).reverse emptyUploadResult [] hall
      refine ⟨r2, ?_, by rw [hpush]; rfl, ?_⟩
      · rw [show Upload (applyCmds t1 stack) (applyCmds t1 pstack) remote
            = (if (applyCmds t1 stack).reverse.isEmpty
               then Except.ok (emptyUploadResult, ([] : List Cmd))
               else uploadLoop ((applyCmds t1 stack).reverse ++ applyCmds t1 pstack)
                 remote (applyCmds t1 stack).reverse emptyUploadResult []) from rfl]
        rw [if_neg (by simp [hs2, hsne]), hrm2]
        exact hloop
      · rw [hsum, hs2]
        simp [emptyUploadResult]

theorem c4_upload_idempotent_witness :
    ∃ r2, Upload
        (applyCmds
          [.pushChange ("aaaaaaaaaaaa".toList) ("og".toList),
           .describe ("bbbbbbbbbbbb".toList)
             ("feat: B\n\nforge-parent: aaaaaaaaaaaa\n".toList),
           .pushChange ("bbbbbbbbbbbb".toList) ("og".toList)] [revB, revA])
        (applyCmds
          [.pushChange ("aaaaaaaaaaaa".toList) ("og".toList),
           .describe ("bbbbbbbbbbbb".toList)
             ("feat: B\n\nforge-parent: aaaaaaaaaaaa\n".toList),
           .pushChange ("bbbbbbbbbbbb".toList) ("og".toList)] [revRoot])
        ("og".toList) = .ok (r2, []) ∧
      r2.pushed = 0 ∧
      r2.skippedSynced + r2.skippedEmpty + r2.skippedAnonymous
        = ([revB, revA] : List Rev).length :=
  c4_upload_idempotent.2 [revB, revA] [revRoot] ("og".toList) ⟨2, 0, 0, 0, 0, 1⟩
    [.pushChange ("aaaaaaaaaaaa".toList) ("og".toList),
     .describe ("bbbbbbbbbbbb".toList) ("feat: B\n\nforge-parent: aaaaaaaaaaaa\n".toList),
     .pushChange ("bbbbbbbbbbbb".toList) ("og".toList)]
    (by decide) (by decide) (by rfl)
